import Mathlib

/-!
Shallow embedding of parts of the octopus variant caller (nh13/octopus) in Lean 4,
together with theorems settling the specification claims about:

* contig output ordering (`get_sorter`, src/core/calling_components.cpp);
* BAM header / read-group validation (`HtslibSamFacade`, src/htslib_sam_facade.cpp);
* caller selection and sample-count checks (src/config/option_collation.cpp);
* the assembler trigger frequency (src/config/option_collation.cpp);
* search-region extraction and skip-region subtraction (src/config/option_collation.cpp);
* unmapped-contig handling (src/core/calling_components.cpp);
* temporary-directory creation (src/config/option_collation.cpp);
* `Haplotype::push_back` / `push_front` (src/haplotype.hpp);
* the `SomaticCall` constructor (src/somatic_call.hpp);
* `strand_bias` (src/read_utils.hpp).

Machine integers are modelled as `Nat`, C++ `double`/`float` as `ℚ`, exceptions as
`Except`/`Option`, and `std::map`s as association lists.  Region-algebra helpers whose
implementation file is not among the provided sources are modelled from the
specification's data model (half-open, zero-based intervals) and carry a doc comment
saying so.
-/

/- ================================================================================
   Part 1: definitions
   ================================================================================ -/

namespace ContigSort

/-- The `ContigOutputOrder` from src/config/option_collation (the `contig-output-order`
option values). -/
inductive ContigOutputOrder
  | lexicographicalAscending
  | lexicographicalDescending
  | contigSizeAscending
  | contigSizeDescending
  | asInReferenceIndex
  | asInReferenceIndexReversed
  | unspecified
deriving DecidableEq

/-- The part of `ReferenceGenome` that `get_sorter` uses: the contig names in
reference-index order, and the contig sizes. -/
structure ReferenceGenome where
  contig_names : List String
  contig_size : String → Nat

/-- The `index_of` from src/core/calling_components.cpp:
`std::distance(cbegin(elements), std::find(cbegin(elements), cend(elements), value))`,
i.e. the index of the first occurrence, or the length if absent. -/
def index_of (elements : List String) (value : String) : Nat :=
  elements.findIdx (fun x => x == value)

/-- The `get_sorter` from src/core/calling_components.cpp: the contig-name comparator for
each `ContigOutputOrder`.  Note that the `asInReferenceIndexReversed` arm of the
source is identical to the `asInReferenceIndex` arm. -/
def get_sorter (order : ContigOutputOrder) (reference : ReferenceGenome) :
    String → String → Bool :=
  match order with
  | .lexicographicalAscending => fun lhs rhs => decide (lhs < rhs)
  | .lexicographicalDescending => fun lhs rhs => decide (rhs < lhs)
  | .contigSizeAscending => fun lhs rhs =>
      decide (reference.contig_size lhs < reference.contig_size rhs)
  | .contigSizeDescending => fun lhs rhs =>
      decide (reference.contig_size rhs < reference.contig_size lhs)
  | .asInReferenceIndex => fun lhs rhs =>
      decide (index_of reference.contig_names lhs < index_of reference.contig_names rhs)
  | .asInReferenceIndexReversed => fun lhs rhs =>
      decide (index_of reference.contig_names lhs < index_of reference.contig_names rhs)
  | .unspecified => fun lhs rhs => decide (lhs < rhs)

/-- A two-contig reference genome used to exhibit the `asInReferenceIndexReversed`
behaviour at a concrete input. -/
def refAB : ReferenceGenome :=
  { contig_names := ["chrA", "chrB"], contig_size := fun _ => 1000 }

end ContigSort

namespace CallerSelect

/-- The options consulted by `get_caller_type` and `check_caller`
(src/config/option_collation.cpp).  `is_set("x", options)` is `(option x).isSome`. -/
structure OptionMap where
  caller : String
  normal_sample : Option String
  maternal_sample : Option String
  paternal_sample : Option String

/-- The `get_caller_type` from src/config/option_collation.cpp.  The argument
`pedigree_is_trio` is the value of the source subexpression
`pedigree && is_trio(samples, *pedigree)`; the pedigree module is outside the
provided sources, so its verdict is passed in as a Boolean. -/
def get_caller_type (options : OptionMap) (samples : List String)
    (pedigree_is_trio : Bool) : String :=
  let result := options.caller
  let result := if result = "population" ∧ samples.length = 1 then "individual" else result
  let result :=
    if options.maternal_sample.isSome ∨ options.paternal_sample.isSome ∨ pedigree_is_trio
    then "trio" else result
  if options.normal_sample.isSome then "cancer" else result

/-- The `BadSampleCount` user error thrown by `check_caller`. -/
inductive CheckCallerError
  | badSampleCount
deriving DecidableEq

/-- The `check_caller` from src/config/option_collation.cpp: only the polyclone caller has
a sample-count restriction. -/
def check_caller (caller : String) (samples : List String) :
    Except CheckCallerError Unit :=
  if caller = "polyclone" then
    if samples.length ≠ 1 then .error .badSampleCount else .ok ()
  else .ok ()

end CallerSelect

namespace AssemblerTrigger

/-- The options consulted by `get_assembler_region_generator_frequency_trigger` and
its helpers (src/config/option_collation.cpp).  `float`/`double` options are
modelled as `ℚ`; `organism-ploidy` is an `int`. -/
structure OptionMap where
  caller : String
  normal_sample_set : Bool
  min_credible_somatic_frequency : ℚ
  min_expected_somatic_frequency : ℚ
  min_clone_frequency : ℚ
  organism_ploidy : Int

/-- The `is_cancer_calling` from src/config/option_collation.cpp:
`caller == "cancer" || options.count("normal-sample") == 1`. -/
def is_cancer_calling (options : OptionMap) : Bool :=
  options.caller == "cancer" || options.normal_sample_set

/-- The `is_polyclone_calling` from src/config/option_collation.cpp. -/
def is_polyclone_calling (options : OptionMap) : Bool :=
  options.caller == "polyclone"

/-- The `get_min_somatic_vaf` from src/config/option_collation.cpp. -/
def get_min_somatic_vaf (options : OptionMap) : ℚ :=
  let c := options.min_credible_somatic_frequency
  let e := options.min_expected_somatic_frequency
  if min c e ≤ 1 then max c e else min c e

/-- The `get_min_clone_vaf` from src/config/option_collation.cpp. -/
def get_min_clone_vaf (options : OptionMap) : ℚ :=
  options.min_clone_frequency

/-- The `get_assembler_region_generator_frequency_trigger` from
src/config/option_collation.cpp. -/
def get_assembler_region_generator_frequency_trigger (options : OptionMap) : ℚ :=
  if is_cancer_calling options then get_min_somatic_vaf options
  else if is_polyclone_calling options then get_min_clone_vaf options
  else if options.organism_ploidy < 4 then 1/10 else 1/20

end AssemblerTrigger

namespace SomaticCallM

/-- A genomic region `(contig, begin, end)`, zero-based half-open
(spec data model). -/
structure GenomicRegion where
  contig : String
  left : Nat
  right : Nat
deriving DecidableEq

/-- An `Allele` is a region plus a sequence (spec data model); equality, as used by
the source's `operator==`, is componentwise. -/
structure Allele where
  region : GenomicRegion
  sequence : List Char
deriving DecidableEq

/-- A `Variant` is a reference allele plus an alternative allele. -/
structure Variant where
  ref : Allele
  alt : Allele
deriving DecidableEq

/-- The `ref_sequence_size(variant)`: the length of the reference allele's sequence. -/
def ref_sequence_size (v : Variant) : Nat := v.ref.sequence.length

/-- The `mapped_region(variant)`: the variant's (reference allele's) region. -/
def mapped_region (v : Variant) : GenomicRegion := v.ref.region

/-- The `CancerGenotype<Allele>`: a germline genotype plus somatic alleles
(spec data model); `get_germline_genotype` returns the first component. -/
structure CancerGenotype where
  germline : List Allele
  somatic : List Allele
deriving DecidableEq

/-- The `VariantCall::GenotypeCall`: a genotype with its posterior. -/
structure GenotypeCall where
  genotype : List Allele
  posterior : ℚ
deriving DecidableEq

/-- The `SomaticCall::CredibleRegion` is `std::pair<double, double>`. -/
def CredibleRegion : Type := ℚ × ℚ

/-- The `SomaticCall::GenotypeCredibleRegions`. -/
structure GenotypeCredibleRegions where
  germline_credible_regions : List (ℚ × ℚ)
  somatic_credible_region : ℚ × ℚ

/-- The state established by the `SomaticCall` constructor: the stored variant, the
per-sample genotype calls, the credible regions and the quality. -/
structure SomaticCallState where
  variant : Variant
  genotype_calls : List (String × GenotypeCall)
  credible_regions : List (String × GenotypeCredibleRegions)
  quality : ℚ

/-- The `SomaticCall` constructor body (src/somatic_call.hpp lines 56-76): if the
variant's reference and alternative alleles compare equal, the reference allele is
replaced by one over the same region whose sequence is `ref_sequence_size` many
`'N'`s; then one `GenotypeCall` carrying the germline genotype and the given
posterior is created per entry of the credible-regions map. -/
def SomaticCall.make (variant : Variant) (genotype_call : CancerGenotype)
    (genotype_posteriors : ℚ)
    (credible_regions : List (String × GenotypeCredibleRegions))
    (quality : ℚ) : SomaticCallState :=
  let variant' :=
    if variant.ref = variant.alt then
      { ref := { region := mapped_region variant,
                 sequence := List.replicate (ref_sequence_size variant) 'N' },
        alt := variant.alt }
    else variant
  { variant := variant'
    genotype_calls := credible_regions.map
      (fun p => (p.1, { genotype := genotype_call.germline,
                        posterior := genotype_posteriors }))
    credible_regions := credible_regions
    quality := quality }

end SomaticCallM

namespace ReadUtils

/-- A genomic region `(contig, begin, end)`, zero-based half-open
(spec data model). -/
structure GenomicRegion where
  contig : String
  left : Nat
  right : Nat
deriving DecidableEq

/-- The part of `AlignedRead` that `strand_bias` consults: the mapped region and the
reverse-strand flag (`is_marked_reverse_mapped`). -/
structure AlignedRead where
  region : GenomicRegion
  reverse_mapped : Bool
deriving DecidableEq

/-- The `detail::IsForward` (src/read_utils.hpp): `!read.is_marked_reverse_mapped()`. -/
def IsForward (read : AlignedRead) : Bool := !read.reverse_mapped

/-- The `detail::IsReverse` (src/read_utils.hpp): `read.is_marked_reverse_mapped()`. -/
def IsReverse (read : AlignedRead) : Bool := read.reverse_mapped

/-- Modelled from the spec: `GenomicRegion::overlaps` for half-open intervals on the
same contig (the implementation file genomic_region.hpp is not among the sources). -/
def overlaps (a b : GenomicRegion) : Bool :=
  a.contig == b.contig && a.left < b.right && b.left < a.right

/-- Modelled from the spec: `overlap_range(reads, region)` returns the reads
overlapping `region` (mappable_algorithms is not among the sources); on a list it is
the overlap filter. -/
def overlap_range (reads : List AlignedRead) (region : GenomicRegion) :
    List AlignedRead :=
  reads.filter (fun read => overlaps read.region region)

/-- The `detail::count_forward(reads, NonMapTypeTag)`:
`std::count_if(reads, IsForward{})`. -/
def count_forward (reads : List AlignedRead) : Nat := reads.countP IsForward

/-- The `detail::count_reverse(reads, NonMapTypeTag)`. -/
def count_reverse (reads : List AlignedRead) : Nat := reads.countP IsReverse

/-- The `detail::count_forward(reads, region, NonMapTypeTag)`: count over
`overlap_range(reads, region)`. -/
def count_forward_in (reads : List AlignedRead) (region : GenomicRegion) : Nat :=
  (overlap_range reads region).countP IsForward

/-- The `detail::count_reverse(reads, region, NonMapTypeTag)`. -/
def count_reverse_in (reads : List AlignedRead) (region : GenomicRegion) : Nat :=
  (overlap_range reads region).countP IsReverse

/-- A `SampleReadMap`: reads per sample, as an association list. -/
def SampleReadMap : Type := List (String × List AlignedRead)

/-- The `detail::count_forward(reads, MapTypeTag)`: accumulate the per-sample counts. -/
def count_forward_map (reads : SampleReadMap) : Nat :=
  (reads.map (fun p => count_forward p.2)).sum

/-- The `detail::count_reverse(reads, MapTypeTag)`. -/
def count_reverse_map (reads : SampleReadMap) : Nat :=
  (reads.map (fun p => count_reverse p.2)).sum

/-- The `strand_bias(reads)` (src/read_utils.hpp lines 775-782), with `double`
modelled as `ℚ`. -/
def strand_bias (reads : List AlignedRead) : ℚ :=
  let num_forward_reads : ℚ := count_forward reads
  let num_reverse_reads : ℚ := count_reverse reads
  let total := num_forward_reads + num_reverse_reads
  if total > 0 then num_forward_reads / total else 0

/-- The `strand_bias(reads, region)` (src/read_utils.hpp lines 784-791). -/
def strand_bias_in (reads : List AlignedRead) (region : GenomicRegion) : ℚ :=
  let num_forward_reads : ℚ := count_forward_in reads region
  let num_reverse_reads : ℚ := count_reverse_in reads region
  let total := num_forward_reads + num_reverse_reads
  if total > 0 then num_forward_reads / total else 0

/-- The `strand_bias(reads)` at a `SampleReadMap` (the `MapTypeTag` instantiation). -/
def strand_bias_map (reads : SampleReadMap) : ℚ :=
  let num_forward_reads : ℚ := count_forward_map reads
  let num_reverse_reads : ℚ := count_reverse_map reads
  let total := num_forward_reads + num_reverse_reads
  if total > 0 then num_forward_reads / total else 0

end ReadUtils

namespace HtslibSam

/-- The `is_tag_type(header_line, tag)` (src/htslib_sam_facade.cpp):
`header_line.compare(1, 2, tag) == 0`, i.e. the two characters after the leading
`'@'` equal the (two-character) tag.  Header lines are modelled as `List Char`. -/
def is_tag_type (header_line : List Char) (tag : List Char) : Bool :=
  (header_line.drop 1).take 2 == tag

/-- First index at which `tag` occurs as a contiguous substring of `line`
(`std::string::find`), or `none` (`npos`). -/
def find_substring (tag : List Char) : List Char → Option Nat
  | [] => if tag.isEmpty then some 0 else none
  | c :: rest =>
    if List.isPrefixOf tag (c :: rest) then some 0
    else (find_substring tag rest).map (· + 1)

/-- The `has_tag(header_line, tag)` (src/htslib_sam_facade.cpp):
`header_line.find(tag) != std::string::npos`. -/
def has_tag (header_line : List Char) (tag : List Char) : Bool :=
  (find_substring tag header_line).isSome

/-- First index `≥ start` holding character `ch` (`std::string::find(ch, start)`). -/
def find_char_from (ch : Char) (line : List Char) (start : Nat) : Option Nat :=
  match (line.drop start).findIdx? (fun c => c == ch) with
  | some j => some (start + j)
  | none => none

/-- The `get_tag_value(line, tag)` (src/htslib_sam_facade.cpp): the characters between
the `':'` following the tag and the next `'\t'` (or the end of the line); `none`
models the `std::runtime_error` thrown when the tag is absent.  When no `':'`
follows, the C++ `npos + 1` size arithmetic wraps the value position to `0`. -/
def get_tag_value (line : List Char) (tag : List Char) : Option (List Char) :=
  match find_substring tag line with
  | none => none
  | some tag_position =>
    let value_position :=
      match find_char_from ':' line tag_position with
      | some j => j + 1
      | none => 0
    some ((line.drop value_position).takeWhile (fun c => c ≠ '\t'))

/-- The `InvalidBamHeader` errors thrown by `HtslibSamFacade::init_maps`. -/
inductive InvalidBamHeader
  | noReadGroupIdTag
  | noSampleTag
  | noReadGroupLines
deriving DecidableEq

/-- The `Read_group_tag` = "RG". -/
def read_group_tag : List Char := ['R', 'G']

/-- The `Read_group_id_tag` = "ID". -/
def read_group_id_tag : List Char := ['I', 'D']

/-- The `Sample_id_tag` = "SM". -/
def sample_id_tag : List Char := ['S', 'M']

/-- The header-scanning loop of `HtslibSamFacade::init_maps`
(src/htslib_sam_facade.cpp lines 282-317): `acc` is the sample map built so far
(reversed) and `n` the number of `@RG` lines seen.  The `getD []` on the tag values
is unreachable default: `has_tag` has already checked that the tags occur. -/
def init_maps_go (lines : List (List Char))
    (acc : List (List Char × List Char)) (n : Nat) :
    Except InvalidBamHeader (List (List Char × List Char)) :=
  match lines with
  | [] => if n = 0 then .error .noReadGroupLines else .ok acc.reverse
  | line :: rest =>
    if is_tag_type line read_group_tag then
      if ¬ has_tag line read_group_id_tag then .error .noReadGroupIdTag
      else if ¬ has_tag line sample_id_tag then .error .noSampleTag
      else init_maps_go rest
        (((get_tag_value line read_group_id_tag).getD [],
          (get_tag_value line sample_id_tag).getD []) :: acc) (n + 1)
    else init_maps_go rest acc n

/-- The `HtslibSamFacade::init_maps` restricted to the sample-map construction: scan the
header lines; every `@RG` line must carry an `ID` tag and an `SM` tag, and at least
one `@RG` line must exist, else an `InvalidBamHeader` error is thrown. -/
def init_maps (lines : List (List Char)) :
    Except InvalidBamHeader (List (List Char × List Char)) :=
  init_maps_go lines [] 0

/-- The part of a BAM record that `get_read_group` consults: the read name and the
`RG` aux field (`none` when `bam_aux_get` returns null). -/
structure BamRecord where
  name : List Char
  read_group : Option (List Char)
deriving DecidableEq

/-- The `InvalidBamRecord` error thrown by `HtslibIterator::get_read_group`. -/
inductive InvalidBamRecord
  | noReadGroup (read_name : List Char)
deriving DecidableEq

/-- The `HtslibSamFacade::HtslibIterator::get_read_group`
(src/htslib_sam_facade.cpp lines 352-361). -/
def get_read_group (rec : BamRecord) : Except InvalidBamRecord (List Char) :=
  match rec.read_group with
  | none => .error (.noReadGroup rec.name)
  | some rg => .ok rg

/-- The `std::unordered_map::at` on the sample map: `none` models the thrown
`std::out_of_range`. -/
def sample_map_at (sample_map : List (List Char × List Char)) (key : List Char) :
    Option (List Char) :=
  (sample_map.find? (fun p => p.1 == key)).map Prod.snd

/-- The error escaping `fetch_reads` when `sample_map_.at` throws (only
`InvalidBamRecord` is caught and ignored; everything else is rethrown). -/
inductive FetchError
  | sampleNotFound (read_group : List Char)
deriving DecidableEq

/-- The record loop of `HtslibSamFacade::fetch_reads`
(src/htslib_sam_facade.cpp lines 174-197): a record whose `get_read_group` throws
`InvalidBamRecord` (no `RG` tag) is silently skipped; a record whose read group is
missing from the sample map rethrows; otherwise the record is added under its
sample. -/
def fetch_reads_go (sample_map : List (List Char × List Char)) :
    List BamRecord → List (List Char × BamRecord) →
    Except FetchError (List (List Char × BamRecord))
  | [], acc => .ok acc.reverse
  | rec :: rest, acc =>
    match get_read_group rec with
    | .error _ => fetch_reads_go sample_map rest acc
    | .ok rg =>
      match sample_map_at sample_map rg with
      | none => .error (.sampleNotFound rg)
      | some sample => fetch_reads_go sample_map rest ((sample, rec) :: acc)

/-- The `HtslibSamFacade::fetch_reads(region)` restricted to its per-record behaviour:
the (sample, read) pairs retained from the iterated records. -/
def fetch_reads (sample_map : List (List Char × List Char))
    (records : List BamRecord) : Except FetchError (List (List Char × BamRecord)) :=
  fetch_reads_go sample_map records []

end HtslibSam

namespace UnmappedContigs

/-- The part of the `ReadManager` that the unmapped-contig logic uses:
`has_reads(contig_region)` per contig, where `none` models the exception thrown when
the contig cannot be matched against the read files. -/
structure ReadManager where
  has_reads : String → Option Bool

/-- The part of `ReferenceGenome` used here: the contig names. -/
structure ReferenceGenome where
  contig_names : List String

/-- The `copy_unmapped_contigs` (src/core/calling_components.cpp lines 168-184): keep the
contigs for which `rm.has_reads(contig_region)` throws. -/
def copy_unmapped_contigs (rm : ReadManager) (contigs : List String) : List String :=
  contigs.filter (fun contig => (rm.has_reads contig).isNone)

/-- The `get_unmapped_contigs` (src/core/calling_components.cpp lines 186-189). -/
def get_unmapped_contigs (rm : ReadManager) (reference : ReferenceGenome) :
    List String :=
  copy_unmapped_contigs rm reference.contig_names

/-- The `get_search_regions(options, reference, rm)` (src/core/calling_components.cpp
lines 191-205): start from the options-level search regions (an association list
from contig to its region set, passed in as `regions`) and, when
`ignore-unmapped-contigs` is set, erase every unmapped contig. -/
def get_search_regions (ignore_unmapped_contigs : Bool)
    (regions : List (String × List (Nat × Nat)))
    (rm : ReadManager) (reference : ReferenceGenome) :
    List (String × List (Nat × Nat)) :=
  if ignore_unmapped_contigs then
    let unmapped := get_unmapped_contigs rm reference
    regions.filter (fun p => ¬ p.1 ∈ unmapped)
  else regions

/-- The `all_reference_contigs_mapped` (src/core/calling_components.cpp lines 510-523):
every reference contig can be queried without an exception. -/
def all_reference_contigs_mapped (rm : ReadManager) (reference : ReferenceGenome) :
    Bool :=
  reference.contig_names.all (fun contig => (rm.has_reads contig).isSome)

/-- The `UnmatchedReference` user error. -/
inductive CollateError
  | unmatchedReference
deriving DecidableEq

/-- The observable outcome of `collate_genome_calling_components`
(src/core/calling_components.cpp lines 561-576): whether it throws
`UnmatchedReference`, and whether the output VCF file was created.  The source
checks the contigs *before* `make_output_vcf_writer` precisely so that no output
file is created on this error. -/
structure CollateOutcome where
  outcome : Except CollateError Unit
  output_file_created : Bool

/-- The `collate_genome_calling_components`, restricted to the unmapped-contig check and
the creation of the output writer. -/
def collate_genome_calling_components (ignore_unmapped_contigs : Bool)
    (rm : ReadManager) (reference : ReferenceGenome) : CollateOutcome :=
  if ¬ ignore_unmapped_contigs ∧ ¬ all_reference_contigs_mapped rm reference then
    { outcome := .error .unmatchedReference, output_file_created := false }
  else
    { outcome := .ok (), output_file_created := true }

end UnmappedContigs

namespace TempDir

/-- The outcome of one `fs::create_directory(result, error_code)` call: the directory
was created; it already existed (`false` with no error code set); or creation failed
with a nonzero error code. -/
inductive FsResult
  | created
  | alreadyExists
  | errorCode (ec : Nat)
deriving DecidableEq

/-- The `UnwritableTempDirectory` system error (with the optional
`boost::system::error_code` payload). -/
inductive TempDirError
  | unwritable (path : String) (ec : Option Nat)
deriving DecidableEq

/-- The `temp_dir_name_count_limit` = 10'000. -/
def temp_dir_name_count_limit : Nat := 10000

/-- The `while (!fs::create_directory(result, error_code) && temp_dir_counter <=
temp_dir_name_count_limit)` loop of `create_temp_file_directory`
(src/config/option_collation.cpp lines 2082-2112), together with the
`temp_dir_counter > temp_dir_name_count_limit` check after it.  The pair's second
component records the directories actually created on the file system.  `fuel`
makes the loop structurally recursive; every call made from the entry point
satisfies `fuel + counter = 10002`, so the `fuel = 0` arm is unreachable: whenever
`fuel = 0` and `counter = 10002` the `counter > limit` test has already exited. -/
def temp_dir_loop (fs : String → FsResult) (base : String) :
    Nat → Nat → String → Except TempDirError String × List String
  | fuel, counter, result =>
    match fs result with
    | .created =>
      if temp_dir_name_count_limit < counter then
        (.error (.unwritable result none), [result])
      else (.ok result, [result])
    | .alreadyExists =>
      if temp_dir_name_count_limit < counter then
        (.error (.unwritable result none), [])
      else
        match fuel with
        | 0 => (.error (.unwritable result none), [])
        | fuel' + 1 =>
          temp_dir_loop fs base fuel' (counter + 1) (base ++ "-" ++ toString counter)
    | .errorCode ec =>
      if temp_dir_name_count_limit < counter then
        (.error (.unwritable result none), [])
      else (.error (.unwritable result (some ec)), [])

/-- The `create_temp_file_directory(options)` (src/config/option_collation.cpp lines
2082-2112) with the file system abstracted as `fs`: the first name tried is
`working_directory / temp_dir_base_name` and subsequent names append
`"-" ++ toString counter` with the counter starting at 2. -/
def create_temp_file_directory (fs : String → FsResult)
    (working_directory temp_dir_base_name : String) :
    Except TempDirError String × List String :=
  temp_dir_loop fs (working_directory ++ "/" ++ temp_dir_base_name) 10000 2
    (working_directory ++ "/" ++ temp_dir_base_name)

/-- The `k`-th candidate directory name (`k ≥ 1`): the base path itself for `k = 1`,
then `base-k`. -/
def temp_name (base : String) (k : Nat) : String :=
  if k = 1 then base else base ++ "-" ++ toString k

end TempDir

namespace HaplotypeM

/-- A region on the haplotype's contig (zero-based half-open; the contig is fixed,
so only the endpoints are kept). -/
structure ContigRegion where
  left : Nat
  right : Nat
deriving DecidableEq

/-- An `Allele`: a region plus a sequence. -/
structure Allele where
  region : ContigRegion
  sequence : List Char
deriving DecidableEq

/-- Modelled from the spec: `is_after(lhs, rhs)` — `lhs` lies entirely after `rhs`
("each is after the previous"; mappable.hpp is not among the sources). -/
def is_after (lhs rhs : ContigRegion) : Bool :=
  rhs.right ≤ lhs.left

/-- Modelled from the spec: `are_adjacent(lhs, rhs)` — the regions abut on either
side. -/
def are_adjacent (lhs rhs : ContigRegion) : Bool :=
  lhs.right == rhs.left || rhs.right == lhs.left

/-- Modelled from the spec: `get_encompassing(lhs, rhs)` — the smallest region
containing both. -/
def get_encompassing (lhs rhs : ContigRegion) : ContigRegion :=
  { left := min lhs.left rhs.left, right := max lhs.right rhs.right }

/-- The reference sequence over a region, for a reference genome modelled as a
base at every position. -/
def reference_sequence (ref : Nat → Char) (r : ContigRegion) : List Char :=
  (List.range (r.right - r.left)).map (fun i => ref (r.left + i))

/-- The `Haplotype::get_intervening_reference_allele(lhs, rhs)`: the reference allele
over the gap between `lhs` and `rhs`. -/
def get_intervening_reference_allele (ref : Nat → Char) (lhs rhs : Allele) : Allele :=
  let gap : ContigRegion := { left := lhs.region.right, right := rhs.region.left }
  { region := gap, sequence := reference_sequence ref gap }

/-- The `Haplotype` state that `push_back`/`push_front` manipulate: the bounding
region and the ordered explicit alleles. -/
structure Haplotype where
  region : ContigRegion
  explicit_alleles : List Allele
deriving DecidableEq

/-- The `Haplotype::push_back` (src/haplotype.hpp lines 98-116): with a nonempty allele
deque, an allele that is not after the back throws; a non-adjacent allele first gets
the intervening reference allele appended; then the allele is appended and the
haplotype region is extended to encompass it. -/
def Haplotype.push_back (ref : Nat → Char) (h : Haplotype) (allele : Allele) :
    Except String Haplotype :=
  match h.explicit_alleles.getLast? with
  | none =>
    .ok { region := get_encompassing h.region allele.region
          explicit_alleles := [allele] }
  | some back =>
    if ¬ is_after allele.region back.region then
      .error "Haplotype::push_back called with out-of-order Allele"
    else
      let with_gap :=
        if ¬ are_adjacent back.region allele.region then
          h.explicit_alleles ++ [get_intervening_reference_allele ref back allele]
        else h.explicit_alleles
      .ok { region := get_encompassing h.region allele.region
            explicit_alleles := with_gap ++ [allele] }

/-- The `Haplotype::push_front` (src/haplotype.hpp lines 118-136). -/
def Haplotype.push_front (ref : Nat → Char) (h : Haplotype) (allele : Allele) :
    Except String Haplotype :=
  match h.explicit_alleles.head? with
  | none =>
    .ok { region := get_encompassing h.region allele.region
          explicit_alleles := [allele] }
  | some front =>
    if ¬ is_after front.region allele.region then
      .error "Haplotype::push_front called with out-of-order Allele"
    else
      let with_gap :=
        if ¬ are_adjacent allele.region front.region then
          get_intervening_reference_allele ref allele front :: h.explicit_alleles
        else h.explicit_alleles
      .ok { region := get_encompassing h.region allele.region
            explicit_alleles := allele :: with_gap }

/-- One `push_back` or `push_front` call with its argument. -/
inductive PushOp
  | back (allele : Allele)
  | front (allele : Allele)

/-- The allele carried by a `PushOp`. -/
def PushOp.allele : PushOp → Allele
  | .back a => a
  | .front a => a

/-- Apply a sequence of push operations, propagating the thrown error. -/
def apply_ops (ref : Nat → Char) (h : Haplotype) :
    List PushOp → Except String Haplotype
  | [] => .ok h
  | op :: rest =>
    match (match op with
           | .back a => h.push_back ref a
           | .front a => h.push_front ref a) with
    | .error e => .error e
    | .ok h' => apply_ops ref h' rest

/-- The explicit-allele invariant stated by the spec: consecutive explicit alleles
abut (sorted, non-overlapping, gap-filled), and every allele has a well-formed
region. -/
def allele_chain (alleles : List Allele) : Prop :=
  List.Chain' (fun x y => x.region.right = y.region.left) alleles ∧
  ∀ a ∈ alleles, a.region.left ≤ a.region.right

end HaplotypeM

namespace SearchRegions

/-- A zero-based half-open interval on one contig. -/
abbrev Itv := Nat × Nat

/-- The `p` lies in the half-open interval `r`. -/
def inItv (p : Nat) (r : Itv) : Bool := r.1 ≤ p && p < r.2

/-- The `p` is covered by some interval of `rs`. -/
def covered (p : Nat) (rs : List Itv) : Bool := rs.any (inItv p)

/-- Modelled from the spec: `GenomicRegion` comparison by `(begin, end)`
(`operator<` used by `std::sort` in `make_search_regions`). -/
def region_le (a b : Itv) : Bool :=
  a.1 < b.1 || (a.1 == b.1 && a.2 ≤ b.2)

/-- Modelled from the spec: two half-open intervals overlap. -/
def overlaps (a b : Itv) : Bool := a.1 < b.2 && b.1 < a.2

/-- Modelled from the spec: `contains(a, b)` — `a` encompasses `b`. -/
def contains_itv (a b : Itv) : Bool := a.1 ≤ b.1 && b.2 ≤ a.2

/-- Modelled from the spec: `begins_before(a, b)`. -/
def begins_before (a b : Itv) : Bool := a.1 < b.1

/-- Modelled from the spec: `ends_before(a, b)`. -/
def ends_before (a b : Itv) : Bool := a.2 < b.2

/-- Modelled from the spec: `left_overhang_region(lhs, rhs)` — the part of `lhs`
before `rhs` begins. -/
def left_overhang_region (lhs rhs : Itv) : Itv := (lhs.1, rhs.1)

/-- Modelled from the spec: `right_overhang_region(lhs, rhs)` — the part of `lhs`
after `rhs` ends. -/
def right_overhang_region (lhs rhs : Itv) : Itv := (rhs.2, lhs.2)

/-- The `extract_intervening_regions`: the gaps between consecutive regions. -/
def extract_intervening_regions : List Itv → List Itv
  | a :: b :: rest => (a.2, b.1) :: extract_intervening_regions (b :: rest)
  | _ => []

/-- Insert into a `region_le`-sorted list (auxiliary to `sort_regions`). -/
def insert_sorted (x : Itv) : List Itv → List Itv
  | [] => [x]
  | y :: rest => if region_le x y then x :: y :: rest else y :: insert_sorted x rest

/-- The `std::sort` by `region_le`.  `region_le` is a total order, so the sorted
permutation is unique and insertion sort is extensionally the same function. -/
def sort_regions : List Itv → List Itv
  | [] => []
  | x :: rest => insert_sorted x (sort_regions rest)

/-- Merging step of `extract_covered_regions` on a begin-sorted list: extend the
current region while the next one overlaps it, else emit it. -/
def merge_covered_go (cur : Itv) : List Itv → List Itv
  | [] => [cur]
  | r :: rest =>
    if overlaps cur r then merge_covered_go (cur.1, max cur.2 r.2) rest
    else cur :: merge_covered_go r rest

/-- Modelled from the spec: `extract_covered_regions` — the minimal region set
covering the same bases as the (begin-sorted) input ("the coverage-union of the
input regions"; mappable_algorithms is not among the sources). -/
def extract_covered_regions : List Itv → List Itv
  | [] => []
  | r :: rest => merge_covered_go r rest

/-- The `make_search_regions` (src/config/option_collation.cpp lines 323-340) on the
regions of one contig: sort, then take the covered regions. -/
def make_search_regions_contig (regions : List Itv) : List Itv :=
  extract_covered_regions (sort_regions regions)

/-- The `skips.overlap_range(region)` on one contig: the skip regions overlapping
`region` (on the sorted skip set the overlap range is contiguous, so it equals the
overlap filter). -/
def overlap_range (skips : List Itv) (region : Itv) : List Itv :=
  skips.filter (fun s => overlaps s region)

/-- The per-region body of `get_unskipped` (src/config/option_collation.cpp lines
347-370): the parts of `region` not covered by the overlapping skip regions. -/
def unskip_one (skips : List Itv) (region : Itv) : List Itv :=
  match overlap_range skips region with
  | [] => [region]
  | s :: rest =>
    if contains_itv s region then []
    else
      (if begins_before region s then [left_overhang_region region s] else []) ++
      extract_intervening_regions (s :: rest) ++
      (if ends_before ((s :: rest).getLast (List.cons_ne_nil s rest)) region then
        [right_overhang_region region ((s :: rest).getLast (List.cons_ne_nil s rest))]
      else [])

/-- The `get_unskipped(regions, skips)` (src/config/option_collation.cpp lines 347-370):
if there are no skips the regions are returned unchanged; otherwise each region is
replaced by its unskipped parts. -/
def get_unskipped (regions skips : List Itv) : List Itv :=
  if skips.isEmpty then regions else regions.flatMap (unskip_one skips)

/-- The `extract_search_regions(regions, skip_regions)` (src/config/option_collation.cpp
lines 372-396) on one contig: build the covered search regions and skip set, then
subtract.  (A contig absent from the skip map keeps its regions, which coincides
with `get_unskipped` at the empty skip list.) -/
def extract_search_regions_contig (regions skips : List Itv) : List Itv :=
  get_unskipped (make_search_regions_contig regions) (make_search_regions_contig skips)

/-- A genomic region with its contig. -/
abbrev Region := String × Itv

/-- The intervals of `rs` lying on contig `c`, in input order (the grouping done by
the `std::map<ContigName, std::deque<GenomicRegion>>` in `make_search_regions`). -/
def contig_intervals (c : String) (rs : List Region) : List Itv :=
  (rs.filter (fun r => r.1 == c)).map Prod.snd

/-- The full `extract_search_regions` per contig: group both region lists by contig
and run the one-contig extraction. -/
def extract_search_regions (regions skips : List Region) (c : String) : List Itv :=
  extract_search_regions_contig (contig_intervals c regions) (contig_intervals c skips)

/-- The `p` on contig `c` is covered by some region of `rs`. -/
def covered_at (c : String) (p : Nat) (rs : List Region) : Bool :=
  rs.any (fun r => r.1 == c && inItv p r.2)

/-- Proof-side normal form of the chunk list produced by `unskip_one` in its
non-trivial branch: the part of `[lo, hi)` before the first overlapped skip, the
gaps between consecutive overlapped skips, and the part after the last one
(empty chunks included). -/
def chunks_from (lo : Nat) : List Itv → Nat → List Itv
  | [], hi => [(lo, hi)]
  | s :: rest, hi => (lo, s.1) :: chunks_from s.2 rest hi

end SearchRegions

/- ================================================================================
   Part 2: theorems
   ================================================================================ -/

namespace ContigSort

/-- C1: the `contig-output-order` claim fails on the code at the reversed order: the
`asInReferenceIndexReversed` arm of `get_sorter` builds the *same* comparator as the
`asInReferenceIndex` arm, so on the concrete reference with contigs
`[chrA, chrB]` both comparators place `chrA` before `chrB`, instead of ordering the
two contigs oppositely as the claim prescribes. -/
theorem get_sorter_reversed_equals_forward :
    get_sorter .asInReferenceIndexReversed refAB =
      get_sorter .asInReferenceIndex refAB ∧
    get_sorter .asInReferenceIndexReversed refAB "chrA" "chrB" = true ∧
    get_sorter .asInReferenceIndex refAB "chrA" "chrB" = true :=
  ⟨rfl, by decide, by decide⟩

end ContigSort

namespace CallerSelect

/-- C3: caller selection.  `normal-sample` set selects cancer; otherwise
`maternal-sample`/`paternal-sample`/a trio pedigree selects trio; otherwise the
`caller` option is used except that `population` with exactly one sample becomes
`individual`; and `check_caller` rejects polyclone with a sample count other
than 1 with `BadSampleCount`. -/
theorem caller_selection (options : OptionMap) (samples : List String) (ped : Bool) :
    (options.normal_sample.isSome →
      get_caller_type options samples ped = "cancer") ∧
    (options.normal_sample = none →
      (options.maternal_sample.isSome ∨ options.paternal_sample.isSome ∨ ped = true) →
      get_caller_type options samples ped = "trio") ∧
    (options.normal_sample = none → options.maternal_sample = none →
      options.paternal_sample = none → ped = false →
      (options.caller = "population" → samples.length = 1 →
        get_caller_type options samples ped = "individual") ∧
      (¬ (options.caller = "population" ∧ samples.length = 1) →
        get_caller_type options samples ped = options.caller)) ∧
    (samples.length ≠ 1 →
      check_caller "polyclone" samples = .error .badSampleCount) ∧
    (∀ caller, samples.length = 1 → check_caller caller samples = .ok ()) :=
  by
  refine ⟨?_, ?_, ?_, ?_, ?_⟩
  · intro h
    simp [get_caller_type, h]
  · intro hn hmp
    simp [get_caller_type, hn, hmp]
  · intro hn hm hp hped
    constructor
    · intro hc hs
      simp [get_caller_type, hn, hm, hp, hped, hc, hs]
    · intro hcs
      simp [get_caller_type, hn, hm, hp, hped, hcs]
  · intro h
    simp [check_caller, h]
  · intro caller h
    simp [check_caller, h]

/-- Witness for C3 at concrete inputs. -/
theorem caller_selection_witness :
    get_caller_type ⟨"individual", some "n", none, none⟩ ["s1"] false = "cancer" ∧
    get_caller_type ⟨"individual", none, some "m", none⟩ ["s1", "s2", "s3"] false
      = "trio" ∧
    get_caller_type ⟨"population", none, none, none⟩ ["s1"] false = "individual" ∧
    get_caller_type ⟨"polyclone", none, none, none⟩ ["s1"] false = "polyclone" ∧
    check_caller "polyclone" ["s1", "s2"] = .error .badSampleCount ∧
    check_caller "polyclone" ["s1"] = .ok () :=
  by
  refine ⟨?_, ?_, ?_, ?_, ?_, ?_⟩
  · exact (caller_selection ⟨"individual", some "n", none, none⟩ ["s1"] false).1
      (by decide)
  · exact (caller_selection ⟨"individual", none, some "m", none⟩
      ["s1", "s2", "s3"] false).2.1 rfl (Or.inl (by decide))
  · exact ((caller_selection ⟨"population", none, none, none⟩ ["s1"] false).2.2.1
      rfl rfl rfl rfl).1 rfl rfl
  · exact ((caller_selection ⟨"polyclone", none, none, none⟩ ["s1"] false).2.2.1
      rfl rfl rfl rfl).2 (by decide)
  · exact (caller_selection ⟨"polyclone", none, none, none⟩ ["s1", "s2"] false).2.2.2.1
      (by decide)
  · exact (caller_selection ⟨"polyclone", none, none, none⟩ ["s1"] false).2.2.2.2
      "polyclone" rfl

end CallerSelect

namespace AssemblerTrigger

/-- C4: the assembler trigger frequency is mode-dependent: in cancer mode
(`caller = cancer` or `normal-sample` set) it is the minimum somatic VAF derived
from `min-credible-somatic-frequency`/`min-expected-somatic-frequency`; in
polyclone mode it is `min-clone-frequency`; otherwise it is `0.1` for
`organism-ploidy < 4` and `0.05` for `organism-ploidy ≥ 4`. -/
theorem assembler_trigger_frequency (options : OptionMap) :
    (is_cancer_calling options = true →
      get_assembler_region_generator_frequency_trigger options
        = get_min_somatic_vaf options) ∧
    (is_cancer_calling options = false → is_polyclone_calling options = true →
      get_assembler_region_generator_frequency_trigger options
        = get_min_clone_vaf options) ∧
    (is_cancer_calling options = false → is_polyclone_calling options = false →
      (options.organism_ploidy < 4 →
        get_assembler_region_generator_frequency_trigger options = 1/10) ∧
      (4 ≤ options.organism_ploidy →
        get_assembler_region_generator_frequency_trigger options = 1/20)) :=
  by
  refine ⟨?_, ?_, ?_⟩
  · intro h
    simp [get_assembler_region_generator_frequency_trigger, h]
  · intro h1 h2
    simp [get_assembler_region_generator_frequency_trigger, h1, h2]
  · intro h1 h2
    constructor
    · intro h3
      simp [get_assembler_region_generator_frequency_trigger, h1, h2, h3]
    · intro h3
      simp [get_assembler_region_generator_frequency_trigger, h1, h2, not_lt.mpr h3]

/-- Witness for C4 at concrete option maps. -/
theorem assembler_trigger_frequency_witness :
    get_assembler_region_generator_frequency_trigger
      ⟨"cancer", false, 1/100, 1/50, 1/25, 2⟩
      = get_min_somatic_vaf ⟨"cancer", false, 1/100, 1/50, 1/25, 2⟩ ∧
    get_assembler_region_generator_frequency_trigger
      ⟨"polyclone", false, 1/100, 1/50, 1/25, 2⟩
      = get_min_clone_vaf ⟨"polyclone", false, 1/100, 1/50, 1/25, 2⟩ ∧
    get_assembler_region_generator_frequency_trigger
      ⟨"individual", false, 1/100, 1/50, 1/25, 2⟩ = 1/10 ∧
    get_assembler_region_generator_frequency_trigger
      ⟨"individual", false, 1/100, 1/50, 1/25, 4⟩ = 1/20 :=
  by
  refine ⟨?_, ?_, ?_, ?_⟩
  · exact (assembler_trigger_frequency _).1 (by decide)
  · exact (assembler_trigger_frequency _).2.1 (by decide) (by decide)
  · exact ((assembler_trigger_frequency _).2.2 (by decide) (by decide)).1 (by decide)
  · exact ((assembler_trigger_frequency _).2.2 (by decide) (by decide)).2 (by decide)

end AssemblerTrigger

namespace SomaticCallM

/-- C9: the `SomaticCall` constructor: when the variant's reference and alternative
alleles compare equal, the stored variant keeps the region and the alternative
allele but replaces the reference sequence by a run of `'N'`s of the original
length; when they differ the variant is stored unchanged; and one `GenotypeCall`
with the germline genotype and the given posterior is created per sample of the
credible-regions map. -/
theorem somatic_call_constructor (variant : Variant) (genotype_call : CancerGenotype)
    (genotype_posteriors : ℚ)
    (credible_regions : List (String × GenotypeCredibleRegions)) (quality : ℚ) :
    (variant.ref = variant.alt →
      (SomaticCall.make variant genotype_call genotype_posteriors credible_regions
          quality).variant =
        { ref := { region := variant.ref.region,
                   sequence := List.replicate variant.ref.sequence.length 'N' },
          alt := variant.alt }) ∧
    (variant.ref ≠ variant.alt →
      (SomaticCall.make variant genotype_call genotype_posteriors credible_regions
          quality).variant = variant) ∧
    (SomaticCall.make variant genotype_call genotype_posteriors credible_regions
        quality).genotype_calls =
      credible_regions.map
        (fun p => (p.1, { genotype := genotype_call.germline,
                          posterior := genotype_posteriors })) :=
  by
  refine ⟨?_, ?_, ?_⟩
  · intro h
    simp [SomaticCall.make, mapped_region, ref_sequence_size, h]
  · intro h
    simp [SomaticCall.make, h]
  · rfl

/-- Witness for C9: a degenerate variant (equal alleles) and a proper variant. -/
theorem somatic_call_constructor_witness :
    (SomaticCall.make
        ⟨⟨⟨"chr1", 5, 6⟩, ['A']⟩, ⟨⟨"chr1", 5, 6⟩, ['A']⟩⟩
        ⟨[⟨⟨"chr1", 5, 6⟩, ['A']⟩], []⟩ (9/10)
        [("s", ⟨[], ((0 : ℚ), (1 : ℚ))⟩)] 50).variant =
      ⟨⟨⟨"chr1", 5, 6⟩, ['N']⟩, ⟨⟨"chr1", 5, 6⟩, ['A']⟩⟩ ∧
    (SomaticCall.make
        ⟨⟨⟨"chr1", 5, 6⟩, ['A']⟩, ⟨⟨"chr1", 5, 6⟩, ['C']⟩⟩
        ⟨[⟨⟨"chr1", 5, 6⟩, ['A']⟩], []⟩ (9/10)
        [("s", ⟨[], ((0 : ℚ), (1 : ℚ))⟩)] 50).variant =
      ⟨⟨⟨"chr1", 5, 6⟩, ['A']⟩, ⟨⟨"chr1", 5, 6⟩, ['C']⟩⟩ :=
  by
  constructor
  · exact (somatic_call_constructor _ _ _ _ _).1 rfl
  · exact (somatic_call_constructor
      ⟨⟨⟨"chr1", 5, 6⟩, ['A']⟩, ⟨⟨"chr1", 5, 6⟩, ['C']⟩⟩ _ _ _ _).2.1 (by decide)

end SomaticCallM

namespace ReadUtils

/-- The generic `forward / (forward + reverse)` ratio behaviour shared by all
`strand_bias` instantiations. -/
theorem strand_ratio_spec (f r : Nat) :
    (0 < f + r →
      (if ((f : ℚ) + (r : ℚ) > 0) then (f : ℚ) / ((f : ℚ) + (r : ℚ)) else 0)
          = (f : ℚ) / ((f : ℚ) + (r : ℚ)) ∧
      0 ≤ (if ((f : ℚ) + (r : ℚ) > 0) then (f : ℚ) / ((f : ℚ) + (r : ℚ)) else 0) ∧
      (if ((f : ℚ) + (r : ℚ) > 0) then (f : ℚ) / ((f : ℚ) + (r : ℚ)) else 0) ≤ 1) ∧
    (f + r = 0 →
      (if ((f : ℚ) + (r : ℚ) > 0) then (f : ℚ) / ((f : ℚ) + (r : ℚ)) else 0) = 0) :=
  by
  constructor
  · intro h
    have hq : (0 : ℚ) < (f : ℚ) + (r : ℚ) := by
      have := Nat.cast_pos (α := ℚ) |>.mpr h
      push_cast at this
      linarith
    rw [if_pos hq]
    refine ⟨rfl, ?_, ?_⟩
    · exact div_nonneg (Nat.cast_nonneg f) (le_of_lt hq)
    · rw [div_le_one hq]
      have : (0 : ℚ) ≤ (r : ℚ) := Nat.cast_nonneg r
      linarith
  · intro h
    have hf : f = 0 := Nat.eq_zero_of_add_eq_zero_right h
    have hr : r = 0 := Nat.eq_zero_of_add_eq_zero_left h
    subst hf hr
    norm_num

/-- C10: `strand_bias` is total and bounded: with at least one counted read it
returns (number of forward reads) / (total counted reads), a value in `[0, 1]`; with
no counted reads it returns exactly `0` instead of dividing by zero.  This holds for
the plain overload, the region overload, and the per-sample-map instantiation. -/
theorem strand_bias_total_and_bounded (reads : List AlignedRead)
    (region : GenomicRegion) (sample_reads : SampleReadMap) :
    (0 < count_forward reads + count_reverse reads →
      strand_bias reads
          = (count_forward reads : ℚ)
              / ((count_forward reads : ℚ) + (count_reverse reads : ℚ)) ∧
      0 ≤ strand_bias reads ∧ strand_bias reads ≤ 1) ∧
    (count_forward reads + count_reverse reads = 0 → strand_bias reads = 0) ∧
    (0 < count_forward_in reads region + count_reverse_in reads region →
      strand_bias_in reads region
          = (count_forward_in reads region : ℚ)
              / ((count_forward_in reads region : ℚ)
                  + (count_reverse_in reads region : ℚ)) ∧
      0 ≤ strand_bias_in reads region ∧ strand_bias_in reads region ≤ 1) ∧
    (count_forward_in reads region + count_reverse_in reads region = 0 →
      strand_bias_in reads region = 0) ∧
    (0 < count_forward_map sample_reads + count_reverse_map sample_reads →
      strand_bias_map sample_reads
          = (count_forward_map sample_reads : ℚ)
              / ((count_forward_map sample_reads : ℚ)
                  + (count_reverse_map sample_reads : ℚ)) ∧
      0 ≤ strand_bias_map sample_reads ∧ strand_bias_map sample_reads ≤ 1) ∧
    (count_forward_map sample_reads + count_reverse_map sample_reads = 0 →
      strand_bias_map sample_reads = 0) :=
  by
  refine ⟨?_, ?_, ?_, ?_, ?_, ?_⟩
  · intro h
    simpa [strand_bias] using (strand_ratio_spec (count_forward reads)
      (count_reverse reads)).1 h
  · intro h
    simpa [strand_bias] using (strand_ratio_spec (count_forward reads)
      (count_reverse reads)).2 h
  · intro h
    simpa [strand_bias_in] using (strand_ratio_spec (count_forward_in reads region)
      (count_reverse_in reads region)).1 h
  · intro h
    simpa [strand_bias_in] using (strand_ratio_spec (count_forward_in reads region)
      (count_reverse_in reads region)).2 h
  · intro h
    simpa [strand_bias_map] using (strand_ratio_spec (count_forward_map sample_reads)
      (count_reverse_map sample_reads)).1 h
  · intro h
    simpa [strand_bias_map] using (strand_ratio_spec (count_forward_map sample_reads)
      (count_reverse_map sample_reads)).2 h

/-- Witness for C10: one forward and one reverse read on `chr1:0-10`, the same two
reads restricted to an overlapping region, a sample map holding them, and the empty
collections. -/
theorem strand_bias_total_and_bounded_witness :
    strand_bias
        [⟨⟨"chr1", 0, 10⟩, false⟩, ⟨⟨"chr1", 0, 10⟩, true⟩] = 1/2 ∧
    strand_bias [] = 0 ∧
    strand_bias_in
        [⟨⟨"chr1", 0, 10⟩, false⟩, ⟨⟨"chr1", 0, 10⟩, true⟩] ⟨"chr1", 5, 15⟩ = 1/2 ∧
    strand_bias_in
        [⟨⟨"chr1", 0, 10⟩, false⟩, ⟨⟨"chr1", 0, 10⟩, true⟩] ⟨"chr2", 5, 15⟩ = 0 ∧
    strand_bias_map
        [("s", [⟨⟨"chr1", 0, 10⟩, false⟩, ⟨⟨"chr1", 0, 10⟩, true⟩])] = 1/2 ∧
    strand_bias_map [] = 0 :=
  by
  have reads : List AlignedRead := [⟨⟨"chr1", 0, 10⟩, false⟩, ⟨⟨"chr1", 0, 10⟩, true⟩]
  refine ⟨?_, ?_, ?_, ?_, ?_, ?_⟩
  · have h := (strand_bias_total_and_bounded
      [⟨⟨"chr1", 0, 10⟩, false⟩, ⟨⟨"chr1", 0, 10⟩, true⟩] ⟨"chr1", 5, 15⟩ []).1
      (by decide)
    rw [h.1]
    norm_num [count_forward, count_reverse, IsForward, IsReverse, List.countP_cons]
  · exact (strand_bias_total_and_bounded [] ⟨"chr1", 5, 15⟩ []).2.1 (by decide)
  · have h := (strand_bias_total_and_bounded
      [⟨⟨"chr1", 0, 10⟩, false⟩, ⟨⟨"chr1", 0, 10⟩, true⟩] ⟨"chr1", 5, 15⟩ []).2.2.1
      (by decide)
    rw [h.1]
    norm_num [count_forward_in, count_reverse_in, overlap_range, overlaps,
      IsForward, IsReverse, List.countP_cons]
  · exact (strand_bias_total_and_bounded
      [⟨⟨"chr1", 0, 10⟩, false⟩, ⟨⟨"chr1", 0, 10⟩, true⟩] ⟨"chr2", 5, 15⟩ []).2.2.2.1
      (by decide)
  · have h := (strand_bias_total_and_bounded [] ⟨"chr1", 5, 15⟩
      [("s", [⟨⟨"chr1", 0, 10⟩, false⟩, ⟨⟨"chr1", 0, 10⟩, true⟩])]).2.2.2.2.1
      (by decide)
    rw [h.1]
    norm_num [count_forward_map, count_reverse_map, count_forward, count_reverse,
      IsForward, IsReverse, List.countP_cons]
  · exact (strand_bias_total_and_bounded [] ⟨"chr1", 5, 15⟩ []).2.2.2.2.2 (by decide)

end ReadUtils

namespace UnmappedContigs

/-- C6: with `ignore-unmapped-contigs` set, every contig the read manager cannot
match is removed from the search regions and no error is raised (the remaining
regions are exactly those of matchable contigs); without it, if some reference
contig cannot be matched, collation produces the `UnmatchedReference` user error and
the output file is not created (while with all contigs matched it succeeds and
creates the output file). -/
theorem unmapped_contig_handling (rm : ReadManager) (reference : ReferenceGenome)
    (regions : List (String × List (Nat × Nat))) :
    (∀ contig ∈ get_search_regions true regions rm reference,
      ¬ contig.1 ∈ get_unmapped_contigs rm reference) ∧
    (get_search_regions true regions rm reference
      = regions.filter (fun p => ¬ p.1 ∈ get_unmapped_contigs rm reference)) ∧
    (all_reference_contigs_mapped rm reference = false →
      collate_genome_calling_components false rm reference
        = { outcome := .error .unmatchedReference, output_file_created := false }) ∧
    (all_reference_contigs_mapped rm reference = true →
      collate_genome_calling_components false rm reference
        = { outcome := .ok (), output_file_created := true }) :=
  by
  refine ⟨?_, ?_, ?_, ?_⟩
  · intro contig hc
    simp only [get_search_regions, if_pos] at hc
    have := (List.mem_filter.mp hc).2
    simpa using this
  · simp [get_search_regions]
  · intro h
    simp [collate_genome_calling_components, h]
  · intro h
    simp [collate_genome_calling_components, h]

/-- Witness for C6: a read manager that matches `chr1` but throws on `chr2`. -/
theorem unmapped_contig_handling_witness :
    get_search_regions true [("chr1", [(0, 10)]), ("chr2", [(0, 10)])]
        ⟨fun c => if c = "chr1" then some true else none⟩ ⟨["chr1", "chr2"]⟩
      = [("chr1", [(0, 10)])] ∧
    (collate_genome_calling_components false
        ⟨fun c => if c = "chr1" then some true else none⟩
        ⟨["chr1", "chr2"]⟩).outcome = .error .unmatchedReference ∧
    (collate_genome_calling_components false
        ⟨fun c => if c = "chr1" then some true else none⟩
        ⟨["chr1", "chr2"]⟩).output_file_created = false :=
  by
  refine ⟨?_, ?_, ?_⟩
  · rw [(unmapped_contig_handling ⟨fun c => if c = "chr1" then some true else none⟩
      ⟨["chr1", "chr2"]⟩ [("chr1", [(0, 10)]), ("chr2", [(0, 10)])]).2.1]
    decide
  · rw [(unmapped_contig_handling ⟨fun c => if c = "chr1" then some true else none⟩
      ⟨["chr1", "chr2"]⟩ []).2.2.1 (by decide)]
  · rw [(unmapped_contig_handling ⟨fun c => if c = "chr1" then some true else none⟩
      ⟨["chr1", "chr2"]⟩ []).2.2.1 (by decide)]

end UnmappedContigs

namespace HtslibSam

/-- If some line of the header is an `@RG` line lacking the `SM` tag, the
`init_maps` scan ends in an `InvalidBamHeader` error (possibly for an even earlier
offending line). -/
theorem init_maps_go_error_of_missing_sm (lines : List (List Char))
    (acc : List (List Char × List Char)) (n : Nat)
    (hbad : ∃ line ∈ lines, is_tag_type line read_group_tag = true ∧
      has_tag line sample_id_tag = false) :
    ∃ e, init_maps_go lines acc n = .error e :=
  by
  induction lines generalizing acc n with
  | nil => simp at hbad
  | cons line rest ih =>
    obtain ⟨bad, hmem, hrg, hsm⟩ := hbad
    by_cases h1 : is_tag_type line read_group_tag
    · by_cases h2 : has_tag line read_group_id_tag
      · by_cases h3 : has_tag line sample_id_tag
        · rcases List.mem_cons.mp hmem with rfl | hmem'
          · exact absurd h3 (by simp [hsm])
          · simpa [init_maps_go, h1, h2, h3] using
              ih _ _ ⟨bad, hmem', hrg, hsm⟩
        · exact ⟨.noSampleTag, by simp [init_maps_go, h1, h2, h3]⟩
      · exact ⟨.noReadGroupIdTag, by simp [init_maps_go, h1, h2]⟩
    · rcases List.mem_cons.mp hmem with rfl | hmem'
      · exact absurd hrg (by simp [h1])
      · simpa [init_maps_go, h1] using ih _ _ ⟨bad, hmem', hrg, hsm⟩

/-- Scanning a header with no `@RG` lines leaves the accumulator untouched. -/
theorem init_maps_go_no_rg (lines : List (List Char))
    (acc : List (List Char × List Char)) (n : Nat)
    (h : ∀ line ∈ lines, is_tag_type line read_group_tag = false) :
    init_maps_go lines acc n
      = if n = 0 then .error .noReadGroupLines else .ok acc.reverse :=
  by
  induction lines generalizing acc n with
  | nil => simp [init_maps_go]
  | cons line rest ih =>
    have h1 : is_tag_type line read_group_tag = false := h line (by simp)
    rw [init_maps_go]
    simp only [h1]
    exact ih _ _ (fun l hl => h l (by simp [hl]))

/-- Every pair in a successful `fetch_reads_go` result either was already
accumulated or carries a record that has an `RG` tag. -/
theorem fetch_reads_go_mem (sample_map : List (List Char × List Char))
    (records : List BamRecord) (acc : List (List Char × BamRecord))
    (out : List (List Char × BamRecord))
    (hok : fetch_reads_go sample_map records acc = .ok out) :
    ∀ p ∈ out, p ∈ acc ∨ p.2.read_group.isSome :=
  by
  induction records generalizing acc with
  | nil =>
    intro p hp
    simp only [fetch_reads_go] at hok
    cases hok
    exact Or.inl (by simpa using hp)
  | cons rec rest ih =>
    intro p hp
    rw [fetch_reads_go] at hok
    cases hrg : rec.read_group with
    | none =>
      simp only [get_read_group, hrg] at hok
      exact ih _ hok p hp
    | some rg =>
      simp only [get_read_group, hrg] at hok
      cases hat : sample_map_at sample_map rg with
      | none => rw [hat] at hok; cases hok
      | some sample =>
        rw [hat] at hok
        rcases ih _ hok p hp with hacc | hsome
        · rcases List.mem_cons.mp hacc with rfl | hacc'
          · exact Or.inr (by simp [hrg])
          · exact Or.inl hacc'
        · exact Or.inr hsome

/-- C2: opening a read file whose header has an `@RG` line without an `SM` tag, or
no `@RG` lines at all, raises an `InvalidBamHeader` error; a record without an `RG`
tag raises `InvalidBamRecord` in `get_read_group`; and no such record appears in a
successful `fetch_reads` result under any sample mapping. -/
theorem read_group_sample_errors :
    (∀ lines : List (List Char),
      (∃ line ∈ lines, is_tag_type line read_group_tag = true ∧
        has_tag line sample_id_tag = false) →
      ∃ e, init_maps lines = .error e) ∧
    (∀ lines : List (List Char),
      (∀ line ∈ lines, is_tag_type line read_group_tag = false) →
      init_maps lines = .error .noReadGroupLines) ∧
    (∀ rec : BamRecord, rec.read_group = none →
      get_read_group rec = .error (.noReadGroup rec.name)) ∧
    (∀ (sample_map : List (List Char × List Char)) (records : List BamRecord)
        (out : List (List Char × BamRecord)) (rec : BamRecord)
        (sample : List Char),
      fetch_reads sample_map records = .ok out → rec.read_group = none →
      ¬ (sample, rec) ∈ out) :=
  by
  refine ⟨?_, ?_, ?_, ?_⟩
  · intro lines hbad
    exact init_maps_go_error_of_missing_sm lines [] 0 hbad
  · intro lines h
    simpa [init_maps] using init_maps_go_no_rg lines [] 0 h
  · intro rec h
    simp [get_read_group, h]
  · intro sample_map records out rec sample hok hnone hmem
    rcases fetch_reads_go_mem sample_map records [] out hok (sample, rec) hmem with
      h | h
    · simp at h
    · rw [hnone] at h
      simp at h

/-- Witness for C2: a header whose only `@RG` line lacks `SM`; a header with no
`@RG` line; and a two-record fetch in which the record without an `RG` tag is
dropped. -/
theorem read_group_sample_errors_witness :
    (∃ e, init_maps [['@', 'R', 'G', '\t', 'I', 'D', ':', 'a']] = .error e) ∧
    init_maps [['@', 'H', 'D', '\t', 'V', 'N', ':', '1']]
      = .error .noReadGroupLines ∧
    get_read_group ⟨['r', '1'], none⟩ = .error (.noReadGroup ['r', '1']) ∧
    ¬ (['s'], (⟨['r', '1'], none⟩ : BamRecord)) ∈
        [((['s'] : List Char), (⟨['r', '2'], some ['a']⟩ : BamRecord))] :=
  by
  refine ⟨?_, ?_, ?_, ?_⟩
  · exact read_group_sample_errors.1 [['@', 'R', 'G', '\t', 'I', 'D', ':', 'a']]
      ⟨['@', 'R', 'G', '\t', 'I', 'D', ':', 'a'], by simp, by decide, by decide⟩
  · exact read_group_sample_errors.2.1 [['@', 'H', 'D', '\t', 'V', 'N', ':', '1']]
      (by decide)
  · exact read_group_sample_errors.2.2.1 ⟨['r', '1'], none⟩ rfl
  · exact read_group_sample_errors.2.2.2 [(['a'], ['s'])]
      [⟨['r', '1'], none⟩, ⟨['r', '2'], some ['a']⟩]
      [(['s'], ⟨['r', '2'], some ['a']⟩)] ⟨['r', '1'], none⟩ ['s'] rfl rfl

end HtslibSam

namespace HaplotypeM

/-- When the new allele is after the back allele and still adjacent to it, the two
regions in fact abut exactly at the back allele's right end. -/
theorem adjacent_after_eq (back a : ContigRegion)
    (hwb : back.left ≤ back.right) (hwa : a.left ≤ a.right)
    (haft : is_after a back = true) (hadj : are_adjacent back a = true) :
    back.right = a.left :=
  by
  simp only [is_after, decide_eq_true_eq] at haft
  simp only [are_adjacent, Bool.or_eq_true, beq_iff_eq] at hadj
  omega

/-- The `push_back` on a haplotype without explicit alleles just records the allele. -/
theorem push_back_empty (ref : Nat → Char) (h : Haplotype) (a : Allele)
    (hlast : h.explicit_alleles.getLast? = none) :
    h.push_back ref a
      = .ok { region := get_encompassing h.region a.region
              explicit_alleles := [a] } :=
  by
  simp [Haplotype.push_back, hlast]

/-- The `push_back` of an allele after the back allele succeeds, gap-filling when the
allele is not adjacent. -/
theorem push_back_ok (ref : Nat → Char) (h : Haplotype) (a back : Allele)
    (hlast : h.explicit_alleles.getLast? = some back)
    (haft : is_after a.region back.region = true) :
    h.push_back ref a = .ok
      { region := get_encompassing h.region a.region
        explicit_alleles :=
          (if ¬ are_adjacent back.region a.region then
            h.explicit_alleles ++ [get_intervening_reference_allele ref back a]
          else h.explicit_alleles) ++ [a] } :=
  by
  simp [Haplotype.push_back, hlast, haft]

/-- The `push_back` of an allele not after the back allele throws. -/
theorem push_back_err (ref : Nat → Char) (h : Haplotype) (a back : Allele)
    (hlast : h.explicit_alleles.getLast? = some back)
    (haft : is_after a.region back.region = false) :
    h.push_back ref a
      = .error "Haplotype::push_back called with out-of-order Allele" :=
  by
  simp [Haplotype.push_back, hlast, haft]

/-- The `push_front` on a haplotype without explicit alleles just records the allele. -/
theorem push_front_empty (ref : Nat → Char) (h : Haplotype) (a : Allele)
    (hhead : h.explicit_alleles.head? = none) :
    h.push_front ref a
      = .ok { region := get_encompassing h.region a.region
              explicit_alleles := [a] } :=
  by
  simp [Haplotype.push_front, hhead]

/-- The `push_front` of an allele before the front allele succeeds, gap-filling when
the allele is not adjacent. -/
theorem push_front_ok (ref : Nat → Char) (h : Haplotype) (a front : Allele)
    (hhead : h.explicit_alleles.head? = some front)
    (haft : is_after front.region a.region = true) :
    h.push_front ref a = .ok
      { region := get_encompassing h.region a.region
        explicit_alleles :=
          a :: (if ¬ are_adjacent a.region front.region then
            get_intervening_reference_allele ref a front :: h.explicit_alleles
          else h.explicit_alleles) } :=
  by
  simp [Haplotype.push_front, hhead, haft]

/-- The `push_front` of an allele not before the front allele throws. -/
theorem push_front_err (ref : Nat → Char) (h : Haplotype) (a front : Allele)
    (hhead : h.explicit_alleles.head? = some front)
    (haft : is_after front.region a.region = false) :
    h.push_front ref a
      = .error "Haplotype::push_front called with out-of-order Allele" :=
  by
  simp [Haplotype.push_front, hhead, haft]

/-- A successful `push_back` preserves the explicit-allele invariant, and every new
allele is the pushed one or a reference-filled gap allele. -/
theorem push_back_invariant (ref : Nat → Char) (h h' : Haplotype) (a : Allele)
    (hch : allele_chain h.explicit_alleles)
    (hwa : a.region.left ≤ a.region.right)
    (hok : h.push_back ref a = .ok h') :
    allele_chain h'.explicit_alleles ∧
    ∀ al ∈ h'.explicit_alleles, al ∈ h.explicit_alleles ∨ al = a ∨
      al.sequence = reference_sequence ref al.region :=
  by
  obtain ⟨hchain, hwf⟩ := hch
  cases hlast : h.explicit_alleles.getLast? with
  | none =>
    rw [push_back_empty ref h a hlast] at hok
    cases hok
    refine ⟨⟨List.chain'_singleton a, by simpa using hwa⟩, ?_⟩
    intro al hal
    simp only [List.mem_singleton] at hal
    exact Or.inr (Or.inl hal)
  | some back =>
    have hbmem : back ∈ h.explicit_alleles := List.mem_of_mem_getLast? hlast
    have hwb := hwf back hbmem
    cases haft : is_after a.region back.region with
    | false =>
      rw [push_back_err ref h a back hlast haft] at hok
      cases hok
    | true =>
      rw [push_back_ok ref h a back hlast haft] at hok
      cases hok
      have hg : back.region.right ≤ a.region.left := by
        simpa [is_after] using haft
      by_cases hadj : are_adjacent back.region a.region
      · rw [if_neg (not_not_intro hadj)]
        have hlink : back.region.right = a.region.left :=
          adjacent_after_eq back.region a.region hwb hwa haft hadj
        refine ⟨⟨?_, ?_⟩, ?_⟩
        · refine List.Chain'.append hchain (List.chain'_singleton a) ?_
          intro x hx y hy
          simp only [hlast, Option.mem_def, Option.some.injEq] at hx
          simp only [List.head?_cons, Option.mem_def, Option.some.injEq] at hy
          subst hx hy
          exact hlink
        · intro al hal
          rcases List.mem_append.mp hal with hm | hm
          · exact hwf al hm
          · simp only [List.mem_singleton] at hm
            subst hm
            exact hwa
        · intro al hal
          rcases List.mem_append.mp hal with hm | hm
          · exact Or.inl hm
          · simp only [List.mem_singleton] at hm
            exact Or.inr (Or.inl hm)
      · rw [if_pos hadj]
        refine ⟨⟨?_, ?_⟩, ?_⟩
        · rw [List.append_assoc]
          refine List.Chain'.append hchain ?_ ?_
          · simp only [List.cons_append, List.nil_append, List.chain'_cons]
            exact ⟨rfl, List.chain'_singleton a⟩
          · intro x hx y hy
            simp only [hlast, Option.mem_def, Option.some.injEq] at hx
            simp only [List.cons_append, List.head?_cons, Option.mem_def,
              Option.some.injEq] at hy
            subst hx hy
            rfl
        · intro al hal
          rw [List.append_assoc] at hal
          rcases List.mem_append.mp hal with hm | hm
          · exact hwf al hm
          · simp only [List.cons_append, List.nil_append, List.mem_cons,
              List.not_mem_nil, or_false] at hm
            rcases hm with rfl | rfl
            · simpa [get_intervening_reference_allele] using hg
            · exact hwa
        · intro al hal
          rw [List.append_assoc] at hal
          rcases List.mem_append.mp hal with hm | hm
          · exact Or.inl hm
          · simp only [List.cons_append, List.nil_append, List.mem_cons,
              List.not_mem_nil, or_false] at hm
            rcases hm with rfl | rfl
            · exact Or.inr (Or.inr rfl)
            · exact Or.inr (Or.inl rfl)

/-- A successful `push_front` preserves the explicit-allele invariant. -/
theorem push_front_invariant (ref : Nat → Char) (h h' : Haplotype) (a : Allele)
    (hch : allele_chain h.explicit_alleles)
    (hwa : a.region.left ≤ a.region.right)
    (hok : h.push_front ref a = .ok h') :
    allele_chain h'.explicit_alleles ∧
    ∀ al ∈ h'.explicit_alleles, al ∈ h.explicit_alleles ∨ al = a ∨
      al.sequence = reference_sequence ref al.region :=
  by
  obtain ⟨hchain, hwf⟩ := hch
  cases hhead : h.explicit_alleles.head? with
  | none =>
    rw [push_front_empty ref h a hhead] at hok
    cases hok
    exact ⟨⟨List.chain'_singleton a, by simpa using hwa⟩,
      fun al hal => Or.inr (Or.inl (by simpa using hal))⟩
  | some front =>
    have hfmem : front ∈ h.explicit_alleles := List.mem_of_mem_head? hhead
    have hwm := hwf front hfmem
    have hcons : h.explicit_alleles = front :: h.explicit_alleles.tail := by
      cases hl : h.explicit_alleles
      · rw [hl] at hhead; cases hhead
      · rw [hl] at hhead
        simp only [List.head?_cons, Option.some.injEq] at hhead
        simp [hhead]
    cases haft : is_after front.region a.region with
    | false =>
      rw [push_front_err ref h a front hhead haft] at hok
      cases hok
    | true =>
      rw [push_front_ok ref h a front hhead haft] at hok
      cases hok
      have hg : a.region.right ≤ front.region.left := by
        simpa [is_after] using haft
      by_cases hadj : are_adjacent a.region front.region
      · rw [if_neg (not_not_intro hadj)]
        have hlink : a.region.right = front.region.left := by
          simp only [are_adjacent, Bool.or_eq_true, beq_iff_eq] at hadj
          omega
        refine ⟨⟨?_, ?_⟩, ?_⟩
        · rw [hcons, List.chain'_cons]
          rw [hcons] at hchain
          exact ⟨hlink, hchain⟩
        · intro al hal
          rcases List.mem_cons.mp hal with rfl | hm
          · exact hwa
          · exact hwf al hm
        · intro al hal
          rcases List.mem_cons.mp hal with rfl | hm
          · exact Or.inr (Or.inl rfl)
          · exact Or.inl hm
      · rw [if_pos hadj]
        refine ⟨⟨?_, ?_⟩, ?_⟩
        · refine List.chain'_cons.mpr ⟨rfl, ?_⟩
          rw [hcons, List.chain'_cons]
          rw [hcons] at hchain
          exact ⟨rfl, hchain⟩
        · intro al hal
          rcases List.mem_cons.mp hal with rfl | hm
          · exact hwa
          · rcases List.mem_cons.mp hm with rfl | hm'
            · simpa [get_intervening_reference_allele] using hg
            · exact hwf al hm'
        · intro al hal
          rcases List.mem_cons.mp hal with rfl | hm
          · exact Or.inr (Or.inl rfl)
          · rcases List.mem_cons.mp hm with rfl | hm'
            · exact Or.inr (Or.inr rfl)
            · exact Or.inl hm'

/-- Applying a list of pushes preserves the invariant, and every explicit allele of
the result is initial, pushed, or a reference-filled gap allele. -/
theorem apply_ops_invariant (ref : Nat → Char) (ops : List PushOp) :
    ∀ (h h' : Haplotype), allele_chain h.explicit_alleles →
    (∀ op ∈ ops, op.allele.region.left ≤ op.allele.region.right) →
    apply_ops ref h ops = .ok h' →
    allele_chain h'.explicit_alleles ∧
    ∀ al ∈ h'.explicit_alleles, al ∈ h.explicit_alleles ∨
      (∃ op ∈ ops, op.allele = al) ∨
      al.sequence = reference_sequence ref al.region :=
  by
  induction ops with
  | nil =>
    intro h h' hch _ hok
    simp only [apply_ops] at hok
    cases hok
    exact ⟨hch, fun al hal => Or.inl hal⟩
  | cons op rest ih =>
    intro h h' hch hwf hok
    rw [show apply_ops ref h (op :: rest)
        = (match (match op with
                  | .back a => h.push_back ref a
                  | .front a => h.push_front ref a) with
           | .error e => .error e
           | .ok h2 => apply_ops ref h2 rest) from rfl] at hok
    cases hstep : (match op with
                   | .back a => h.push_back ref a
                   | .front a => h.push_front ref a) with
    | error e => rw [hstep] at hok; cases hok
    | ok hmid =>
      rw [hstep] at hok
      have hstep' : allele_chain hmid.explicit_alleles ∧
          ∀ al ∈ hmid.explicit_alleles, al ∈ h.explicit_alleles ∨ al = op.allele ∨
            al.sequence = reference_sequence ref al.region := by
        cases op with
        | back a =>
          exact push_back_invariant ref h hmid a ⟨hch.1, hch.2⟩
            (hwf (.back a) (by simp)) hstep
        | front a =>
          exact push_front_invariant ref h hmid a ⟨hch.1, hch.2⟩
            (hwf (.front a) (by simp)) hstep
      obtain ⟨hmidch, hmidmem⟩ := hstep'
      obtain ⟨hfin, hfinmem⟩ := ih hmid h' hmidch
        (fun o ho => hwf o (by simp [ho])) hok
      refine ⟨hfin, ?_⟩
      intro al hal
      rcases hfinmem al hal with hm | hm | hm
      · rcases hmidmem al hm with hm' | hm' | hm'
        · exact Or.inl hm'
        · exact Or.inr (Or.inl ⟨op, by simp, hm'.symm⟩)
        · exact Or.inr (Or.inr hm')
      · obtain ⟨o, ho, rfl⟩ := hm
        exact Or.inr (Or.inl ⟨o, by simp [ho], rfl⟩)
      · exact Or.inr (Or.inr hm)

/-- C8: `push_back`/`push_front` throw exactly on out-of-order alleles, otherwise
append/prepend with reference gap-filling and extend the region to encompass the
new allele; consequently, after any successful sequence of pushes starting from a
haplotype without explicit alleles, the explicit alleles abut pairwise (sorted,
non-overlapping, contiguous) and every allele not explicitly pushed carries the
reference sequence of its gap region. -/
theorem haplotype_push_spec (ref : Nat → Char) :
    (∀ (h : Haplotype) (a : Allele),
      (∃ e, h.push_back ref a = .error e) ↔
        ∃ back, h.explicit_alleles.getLast? = some back ∧
          is_after a.region back.region = false) ∧
    (∀ (h : Haplotype) (a : Allele),
      (∃ e, h.push_front ref a = .error e) ↔
        ∃ front, h.explicit_alleles.head? = some front ∧
          is_after front.region a.region = false) ∧
    (∀ (h : Haplotype) (a back : Allele),
      h.explicit_alleles.getLast? = some back →
      is_after a.region back.region = true →
      h.push_back ref a = .ok
        { region := get_encompassing h.region a.region
          explicit_alleles :=
            (if ¬ are_adjacent back.region a.region then
              h.explicit_alleles ++ [get_intervening_reference_allele ref back a]
            else h.explicit_alleles) ++ [a] } ∧
      (get_intervening_reference_allele ref back a).sequence
        = reference_sequence ref ⟨back.region.right, a.region.left⟩) ∧
    (∀ (h : Haplotype) (a front : Allele),
      h.explicit_alleles.head? = some front →
      is_after front.region a.region = true →
      h.push_front ref a = .ok
        { region := get_encompassing h.region a.region
          explicit_alleles :=
            a :: (if ¬ are_adjacent a.region front.region then
              get_intervening_reference_allele ref a front :: h.explicit_alleles
            else h.explicit_alleles) }) ∧
    (∀ (region0 : ContigRegion) (ops : List PushOp) (h : Haplotype),
      (∀ op ∈ ops, op.allele.region.left ≤ op.allele.region.right) →
      apply_ops ref ⟨region0, []⟩ ops = .ok h →
      allele_chain h.explicit_alleles ∧
      ∀ al ∈ h.explicit_alleles,
        (∃ op ∈ ops, op.allele = al) ∨
        al.sequence = reference_sequence ref al.region) :=
  by
  refine ⟨?_, ?_, ?_, ?_, ?_⟩
  · intro h a
    constructor
    · rintro ⟨e, he⟩
      cases hlast : h.explicit_alleles.getLast? with
      | none => rw [push_back_empty ref h a hlast] at he; cases he
      | some back =>
        refine ⟨back, rfl, ?_⟩
        cases hb : is_after a.region back.region with
        | false => rfl
        | true => rw [push_back_ok ref h a back hlast hb] at he; cases he
    · rintro ⟨back, hlast, haft⟩
      exact ⟨_, push_back_err ref h a back hlast haft⟩
  · intro h a
    constructor
    · rintro ⟨e, he⟩
      cases hhead : h.explicit_alleles.head? with
      | none => rw [push_front_empty ref h a hhead] at he; cases he
      | some front =>
        refine ⟨front, rfl, ?_⟩
        cases hb : is_after front.region a.region with
        | false => rfl
        | true => rw [push_front_ok ref h a front hhead hb] at he; cases he
    · rintro ⟨front, hhead, haft⟩
      exact ⟨_, push_front_err ref h a front hhead haft⟩
  · intro h a back hlast haft
    exact ⟨push_back_ok ref h a back hlast haft, rfl⟩
  · intro h a front hhead haft
    exact push_front_ok ref h a front hhead haft
  · intro region0 ops h hwf hok
    obtain ⟨hch, hmem⟩ := apply_ops_invariant ref ops ⟨region0, []⟩ h
      ⟨List.chain'_nil, by simp⟩ hwf hok
    refine ⟨hch, ?_⟩
    intro al hal
    rcases hmem al hal with hm | hm | hm
    · simp at hm
    · exact Or.inl hm
    · exact Or.inr hm

/-- Witness for C8: pushing `[2,4)` then `[6,8)` onto an empty haplotype gap-fills
`[4,6)` from the reference; pushing a non-after allele throws. -/
theorem haplotype_push_spec_witness :
    (Haplotype.push_back (fun _ => 'G')
        ⟨⟨0, 10⟩, [⟨⟨2, 4⟩, ['A', 'A']⟩]⟩ ⟨⟨6, 8⟩, ['T', 'T']⟩
      = .ok ⟨⟨0, 10⟩, [⟨⟨2, 4⟩, ['A', 'A']⟩, ⟨⟨4, 6⟩, ['G', 'G']⟩,
          ⟨⟨6, 8⟩, ['T', 'T']⟩]⟩) ∧
    (∃ e, Haplotype.push_back (fun _ => 'G')
        ⟨⟨0, 10⟩, [⟨⟨6, 8⟩, ['T', 'T']⟩]⟩ ⟨⟨2, 4⟩, ['A', 'A']⟩ = .error e) ∧
    (apply_ops (fun _ => 'G') ⟨⟨0, 10⟩, []⟩
        [.back ⟨⟨2, 4⟩, ['A', 'A']⟩, .back ⟨⟨6, 8⟩, ['T', 'T']⟩]
      = .ok ⟨⟨0, 10⟩, [⟨⟨2, 4⟩, ['A', 'A']⟩, ⟨⟨4, 6⟩, ['G', 'G']⟩,
          ⟨⟨6, 8⟩, ['T', 'T']⟩]⟩ →
      allele_chain [⟨⟨2, 4⟩, ['A', 'A']⟩, ⟨⟨4, 6⟩, ['G', 'G']⟩,
        ⟨⟨6, 8⟩, ['T', 'T']⟩]) :=
  by
  refine ⟨?_, ?_, ?_⟩
  · have h := ((haplotype_push_spec (fun _ => 'G')).2.2.1
      ⟨⟨0, 10⟩, [⟨⟨2, 4⟩, ['A', 'A']⟩]⟩ ⟨⟨6, 8⟩, ['T', 'T']⟩ ⟨⟨2, 4⟩, ['A', 'A']⟩
      rfl (by decide)).1
    rw [h]
    simp [get_encompassing, get_intervening_reference_allele, reference_sequence]
    decide
  · exact ((haplotype_push_spec (fun _ => 'G')).1
      ⟨⟨0, 10⟩, [⟨⟨6, 8⟩, ['T', 'T']⟩]⟩ ⟨⟨2, 4⟩, ['A', 'A']⟩).mpr
      ⟨⟨⟨6, 8⟩, ['T', 'T']⟩, rfl, by decide⟩
  · intro hok
    exact ((haplotype_push_spec (fun _ => 'G')).2.2.2.2 ⟨0, 10⟩
      [.back ⟨⟨2, 4⟩, ['A', 'A']⟩, .back ⟨⟨6, 8⟩, ['T', 'T']⟩]
      ⟨⟨0, 10⟩, [⟨⟨2, 4⟩, ['A', 'A']⟩, ⟨⟨4, 6⟩, ['G', 'G']⟩, ⟨⟨6, 8⟩, ['T', 'T']⟩]⟩
      (by
        intro op hop
        simp only [List.mem_cons, List.not_mem_nil, or_false] at hop
        rcases hop with rfl | rfl <;> decide)
      hok).1

end HaplotypeM

namespace TempDir

/-- The first candidate name is the base path itself. -/
theorem temp_name_one (base : String) : temp_name base 1 = base := by
  simp [temp_name]

/-- Candidate names beyond the first append the dash and the counter. -/
theorem temp_name_succ (base : String) (k : Nat) (h : 2 ≤ k) :
    temp_name base k = base ++ "-" ++ toString k := by
  rw [temp_name, if_neg (by omega)]

/-- One loop step over an already-existing directory advances the counter and the
candidate name. -/
theorem temp_dir_loop_skip (fs : String → FsResult) (p : String) (k : Nat)
    (h1 : 1 ≤ k) (h2 : k ≤ 9999)
    (hex : fs (temp_name p k) = .alreadyExists) :
    temp_dir_loop fs p (10001 - k) (k + 1) (temp_name p k)
      = temp_dir_loop fs p (10000 - k) (k + 2) (temp_name p (k + 1)) :=
  by
  have hfuel : (10001 : Nat) - k = (10000 - k) + 1 := by omega
  have hlt : ¬ (temp_dir_name_count_limit < k + 1) := by
    simp only [temp_dir_name_count_limit]
    omega
  rw [hfuel, temp_dir_loop, hex]
  simp only [hlt, if_false]
  rw [temp_name_succ p (k + 1) (by omega)]

/-- A successful creation with the counter within the limit returns the name. -/
theorem temp_dir_loop_created (fs : String → FsResult) (p : String) (k : Nat)
    (h2 : k ≤ 9999) (hc : fs (temp_name p k) = .created) :
    temp_dir_loop fs p (10001 - k) (k + 1) (temp_name p k)
      = (.ok (temp_name p k), [temp_name p k]) :=
  by
  have hlt : ¬ (temp_dir_name_count_limit < k + 1) := by
    simp only [temp_dir_name_count_limit]
    omega
  rw [show (10001 : Nat) - k = (10000 - k) + 1 from by omega, temp_dir_loop, hc]
  simp only [hlt, if_false]

/-- A file-system error with the counter within the limit throws with the error
code and creates nothing. -/
theorem temp_dir_loop_errored (fs : String → FsResult) (p : String) (k : Nat)
    (ec : Nat) (h2 : k ≤ 9999) (hc : fs (temp_name p k) = .errorCode ec) :
    temp_dir_loop fs p (10001 - k) (k + 1) (temp_name p k)
      = (.error (.unwritable (temp_name p k) (some ec)), []) :=
  by
  have hlt : ¬ (temp_dir_name_count_limit < k + 1) := by
    simp only [temp_dir_name_count_limit]
    omega
  rw [show (10001 : Nat) - k = (10000 - k) + 1 from by omega, temp_dir_loop, hc]
  simp only [hlt, if_false]

/-- At the 10000-th name the counter is 10001, so whatever `create_directory` does
the function throws; a successful creation still happens on disk but is
discarded. -/
theorem temp_dir_loop_at_limit (fs : String → FsResult) (p : String) :
    temp_dir_loop fs p 1 10001 (temp_name p 10000)
      = (.error (.unwritable (temp_name p 10000) none),
          if fs (temp_name p 10000) = .created then [temp_name p 10000] else []) :=
  by
  have hlt : temp_dir_name_count_limit < 10001 := by
    simp [temp_dir_name_count_limit]
  rw [temp_dir_loop]
  cases hc : fs (temp_name p 10000) with
  | created => simp [hlt, hc]
  | alreadyExists => simp [hlt, hc]
  | errorCode ec => simp [hlt, hc]

/-- If the first `k - 1` names all exist, the loop reaches the `k`-th attempt. -/
theorem temp_dir_loop_reach (fs : String → FsResult) (p : String) :
    ∀ k, 1 ≤ k → k ≤ 10000 →
    (∀ j, 1 ≤ j → j < k → fs (temp_name p j) = .alreadyExists) →
    temp_dir_loop fs p 10000 2 (temp_name p 1)
      = temp_dir_loop fs p (10001 - k) (k + 1) (temp_name p k) :=
  by
  intro k
  induction k with
  | zero => omega
  | succ n ih =>
    intro h1 h2 hex
    by_cases hn : n = 0
    · subst hn
      norm_num
    · have hn1 : 1 ≤ n := by omega
      rw [ih hn1 (by omega) (fun j hj1 hj2 => hex j hj1 (by omega))]
      have := temp_dir_loop_skip fs p n hn1 (by omega)
        (hex n hn1 (by omega))
      rw [show (10001 : Nat) - (n + 1) = 10000 - n from by omega]
      rw [show n + 1 + 1 = n + 2 from rfl]
      exact this

/-- The `create_temp_file_directory` enters the loop at the base name with counter 2. -/
theorem create_temp_entry (fs : String → FsResult) (wd base : String) :
    create_temp_file_directory fs wd base
      = temp_dir_loop fs (wd ++ "/" ++ base) 10000 2
          (temp_name (wd ++ "/" ++ base) 1) :=
  by
  rw [create_temp_file_directory, temp_name_one]

/-- If the first `k - 1` names exist and the `k`-th (`k ≤ 9999`) is creatable,
`create_temp_file_directory` returns it, having created exactly that directory. -/
theorem create_temp_ok (fs : String → FsResult) (wd base : String) (k : Nat)
    (h1 : 1 ≤ k) (h2 : k ≤ 9999)
    (hex : ∀ j ∈ List.range' 1 (k - 1), fs (temp_name (wd ++ "/" ++ base) j)
      = .alreadyExists)
    (hc : fs (temp_name (wd ++ "/" ++ base) k) = .created) :
    create_temp_file_directory fs wd base
      = (.ok (temp_name (wd ++ "/" ++ base) k),
          [temp_name (wd ++ "/" ++ base) k]) :=
  by
  rw [create_temp_entry,
    temp_dir_loop_reach fs (wd ++ "/" ++ base) k h1 (by omega)
      (fun j hj1 hj2 => hex j (List.mem_range'_1.mpr ⟨hj1, by omega⟩)),
    temp_dir_loop_created fs (wd ++ "/" ++ base) k h2 hc]

/-- If the first `k - 1` names exist and creating the `k`-th (`k ≤ 9999`) fails
with an error code, `create_temp_file_directory` throws `UnwritableTempDirectory`
with that code and creates nothing. -/
theorem create_temp_fs_error (fs : String → FsResult) (wd base : String) (k : Nat)
    (ec : Nat) (h1 : 1 ≤ k) (h2 : k ≤ 9999)
    (hex : ∀ j ∈ List.range' 1 (k - 1), fs (temp_name (wd ++ "/" ++ base) j)
      = .alreadyExists)
    (hc : fs (temp_name (wd ++ "/" ++ base) k) = .errorCode ec) :
    create_temp_file_directory fs wd base
      = (.error (.unwritable (temp_name (wd ++ "/" ++ base) k) (some ec)), []) :=
  by
  rw [create_temp_entry,
    temp_dir_loop_reach fs (wd ++ "/" ++ base) k h1 (by omega)
      (fun j hj1 hj2 => hex j (List.mem_range'_1.mpr ⟨hj1, by omega⟩)),
    temp_dir_loop_errored fs (wd ++ "/" ++ base) k ec h2 hc]

/-- If the first 9999 names all exist, the 10000-th attempt is still made but its
outcome is discarded: the function always throws `UnwritableTempDirectory`, and
when that final attempt succeeded the directory has nevertheless been created on
disk. -/
theorem create_temp_at_limit (fs : String → FsResult) (wd base : String)
    (hex : ∀ j ∈ List.range' 1 9999, fs (temp_name (wd ++ "/" ++ base) j)
      = .alreadyExists) :
    create_temp_file_directory fs wd base
      = (.error (.unwritable (temp_name (wd ++ "/" ++ base) 10000) none),
          if fs (temp_name (wd ++ "/" ++ base) 10000) = .created then
            [temp_name (wd ++ "/" ++ base) 10000]
          else []) :=
  by
  rw [create_temp_entry,
    temp_dir_loop_reach fs (wd ++ "/" ++ base) 10000 (by omega) (by omega)
      (fun j hj1 hj2 => hex j (List.mem_range'_1.mpr ⟨hj1, by omega⟩))]
  exact temp_dir_loop_at_limit fs (wd ++ "/" ++ base)

/-- The name of every attempt before the 10000-th is shorter than 10 characters
(for the four-character base "wd/t"). -/
theorem temp_name_short (j : Nat) (h1 : 1 ≤ j) (h2 : j < 10000) :
    (temp_name ("wd" ++ "/" ++ "t") j).length < 10 :=
  by
  by_cases hj : j = 1
  · subst hj
    rw [temp_name_one]
    decide
  · rw [temp_name_succ _ j (by omega)]
    have hrepr : (Nat.repr j).length ≤ 4 :=
      Nat.repr_length j 4 (by norm_num) (by omega)
    have : toString j = Nat.repr j := rfl
    rw [this]
    have h1 : ("wd" : String).length = 2 := by decide
    have h2 : ("/" : String).length = 1 := by decide
    have h3 : ("t" : String).length = 1 := by decide
    have h4 : ("-" : String).length = 1 := by decide
    simp only [String.length_append, h1, h2, h3, h4]
    omega

/-- C7 counterexample: with the base name and `base-2, …, base-9999` all existing
and `base-10000` creatable (here: every name shorter than 10 characters exists and
longer names are creatable), the claim says the function returns `base-10000` — the
first name it can create — and creates no directory when it throws; the code
instead throws `UnwritableTempDirectory` *and* leaves the freshly created
`base-10000` behind. -/
theorem create_temp_file_directory_limit_counterexample :
    create_temp_file_directory
        (fun s => if 10 ≤ s.length then .created else .alreadyExists) "wd" "t"
      = (.error (.unwritable "wd/t-10000" none), ["wd/t-10000"]) :=
  by
  have hname : temp_name ("wd" ++ "/" ++ "t") 10000 = "wd/t-10000" := by decide
  have hex : ∀ j ∈ List.range' 1 9999,
      (fun s => if 10 ≤ s.length then FsResult.created else .alreadyExists)
        (temp_name ("wd" ++ "/" ++ "t") j) = .alreadyExists := by
    intro j hj
    obtain ⟨hj1, hj2⟩ := List.mem_range'_1.mp hj
    have := temp_name_short j hj1 (by omega)
    simp only []
    rw [if_neg (by omega)]
  have h := create_temp_at_limit
    (fun s => if 10 ≤ s.length then .created else .alreadyExists) "wd" "t" hex
  rw [hname] at h
  simpa using h

/-- C7 (amended): `create_temp_file_directory` returns the first name it can create
among the base prefix and then `prefix-2, …, prefix-9999` with strictly increasing
counters, creating exactly that directory; a file-system error during one of those
attempts throws `UnwritableTempDirectory` (with the error code) and creates no
directory; and once the first 9999 names all exist the 10000-th name is still
tried, but the function then throws `UnwritableTempDirectory` regardless of the
outcome — creating (and leaking) the 10000-th directory when that final attempt
succeeds, and creating nothing otherwise. -/
theorem create_temp_file_directory_spec (fs : String → FsResult)
    (wd base : String) (k : Nat) (ec : Nat) :
    (1 ≤ k → k ≤ 9999 →
      (∀ j ∈ List.range' 1 (k - 1), fs (temp_name (wd ++ "/" ++ base) j)
        = .alreadyExists) →
      fs (temp_name (wd ++ "/" ++ base) k) = .created →
      create_temp_file_directory fs wd base
        = (.ok (temp_name (wd ++ "/" ++ base) k),
            [temp_name (wd ++ "/" ++ base) k])) ∧
    (1 ≤ k → k ≤ 9999 →
      (∀ j ∈ List.range' 1 (k - 1), fs (temp_name (wd ++ "/" ++ base) j)
        = .alreadyExists) →
      fs (temp_name (wd ++ "/" ++ base) k) = .errorCode ec →
      create_temp_file_directory fs wd base
        = (.error (.unwritable (temp_name (wd ++ "/" ++ base) k) (some ec)), [])) ∧
    ((∀ j ∈ List.range' 1 9999, fs (temp_name (wd ++ "/" ++ base) j)
        = .alreadyExists) →
      create_temp_file_directory fs wd base
        = (.error (.unwritable (temp_name (wd ++ "/" ++ base) 10000) none),
            if fs (temp_name (wd ++ "/" ++ base) 10000) = .created then
              [temp_name (wd ++ "/" ++ base) 10000]
            else [])) :=
  ⟨fun h1 h2 hex hc => create_temp_ok fs wd base k h1 h2 hex hc,
   fun h1 h2 hex hc => create_temp_fs_error fs wd base k ec h1 h2 hex hc,
   fun hex => create_temp_at_limit fs wd base hex⟩

/-- Witness for C7: the base name is created immediately; a second file system has
the base existing and `base-2` creatable; a third errors on the first attempt; a
fourth has every name existing. -/
theorem create_temp_file_directory_spec_witness :
    create_temp_file_directory (fun _ => .created) "wd" "t"
      = (.ok "wd/t", ["wd/t"]) ∧
    create_temp_file_directory
        (fun s => if s = "wd/t" then .alreadyExists else .created) "wd" "t"
      = (.ok "wd/t-2", ["wd/t-2"]) ∧
    create_temp_file_directory (fun _ => .errorCode 13) "wd" "t"
      = (.error (.unwritable "wd/t" (some 13)), []) ∧
    create_temp_file_directory (fun _ => .alreadyExists) "wd" "t"
      = (.error (.unwritable (temp_name ("wd" ++ "/" ++ "t") 10000) none), []) :=
  by
  refine ⟨?_, ?_, ?_, ?_⟩
  · have h := (create_temp_file_directory_spec (fun _ => .created) "wd" "t" 1 0).1
      (by omega) (by omega) (by intro j hj; simp at hj) rfl
    simpa [temp_name] using h
  · have h := (create_temp_file_directory_spec
      (fun s => if s = "wd/t" then .alreadyExists else .created) "wd" "t" 2 0).1
      (by omega) (by omega) (by decide) (by decide)
    simpa [temp_name] using h
  · have h := (create_temp_file_directory_spec (fun _ => .errorCode 13)
      "wd" "t" 1 13).2.1
      (by omega) (by omega) (by intro j hj; simp at hj) rfl
    simpa [temp_name] using h
  · have h := (create_temp_file_directory_spec (fun _ => .alreadyExists)
      "wd" "t" 1 0).2.2 (fun j hj => rfl)
    simpa using h

end TempDir

namespace SearchRegions

theorem inItv_iff (p : Nat) (r : Itv) : inItv p r = true ↔ r.1 ≤ p ∧ p < r.2 := by
  simp [inItv]

theorem overlaps_iff (a b : Itv) : overlaps a b = true ↔ a.1 < b.2 ∧ b.1 < a.2 := by
  simp [overlaps]

theorem covered_nil (p : Nat) : covered p [] = false := rfl

theorem covered_cons (p : Nat) (r : Itv) (rs : List Itv) :
    covered p (r :: rs) = (inItv p r || covered p rs) := by
  simp [covered]

theorem covered_append (p : Nat) (l₁ l₂ : List Itv) :
    covered p (l₁ ++ l₂) = (covered p l₁ || covered p l₂) := by
  simp [covered, List.any_append]

theorem covered_iff (p : Nat) (rs : List Itv) :
    covered p rs = true ↔ ∃ r ∈ rs, r.1 ≤ p ∧ p < r.2 := by
  simp [covered, List.any_eq_true, inItv_iff]

theorem region_le_iff (a b : Itv) :
    region_le a b = true ↔ a.1 < b.1 ∨ (a.1 = b.1 ∧ a.2 ≤ b.2) := by
  simp [region_le]

theorem region_le_total (a b : Itv) (h : region_le a b = false) :
    region_le b a = true := by
  rw [region_le_iff]
  rw [← Bool.not_eq_true, region_le_iff] at h
  omega

theorem region_le_trans (a b c : Itv) (h1 : region_le a b = true)
    (h2 : region_le b c = true) : region_le a c = true := by
  rw [region_le_iff] at h1 h2 ⊢
  omega

theorem mem_insert_sorted (x a : Itv) (l : List Itv) :
    a ∈ insert_sorted x l ↔ a = x ∨ a ∈ l := by
  induction l with
  | nil => simp [insert_sorted]
  | cons y rest ih =>
    rw [insert_sorted]
    by_cases h : region_le x y
    · rw [if_pos h]
      simp
    · rw [if_neg h]
      simp only [List.mem_cons, ih]
      tauto

theorem mem_sort_regions (a : Itv) (l : List Itv) :
    a ∈ sort_regions l ↔ a ∈ l := by
  induction l with
  | nil => simp [sort_regions]
  | cons x rest ih =>
    rw [sort_regions, mem_insert_sorted]
    simp [ih]

theorem pairwise_insert_sorted (x : Itv) (l : List Itv)
    (h : l.Pairwise (fun a b => region_le a b = true)) :
    (insert_sorted x l).Pairwise (fun a b => region_le a b = true) := by
  induction l with
  | nil => simp [insert_sorted]
  | cons y rest ih =>
    rw [insert_sorted]
    rw [List.pairwise_cons] at h
    by_cases hxy : region_le x y
    · rw [if_pos hxy]
      rw [List.pairwise_cons]
      refine ⟨?_, List.pairwise_cons.mpr h⟩
      intro z hz
      rcases List.mem_cons.mp hz with rfl | hz'
      · exact hxy
      · exact region_le_trans x y z hxy (h.1 z hz')
    · rw [if_neg hxy]
      rw [List.pairwise_cons]
      refine ⟨?_, ih h.2⟩
      intro z hz
      rcases (mem_insert_sorted x z rest).mp hz with heq | hz'
      · rw [heq]
        exact region_le_total x y (by simpa using hxy)
      · exact h.1 z hz'

theorem pairwise_sort_regions (l : List Itv) :
    (sort_regions l).Pairwise (fun a b => region_le a b = true) := by
  induction l with
  | nil => simp [sort_regions]
  | cons x rest ih => exact pairwise_insert_sorted x (sort_regions rest) ih

theorem pairwise_begin_sort_regions (l : List Itv) :
    (sort_regions l).Pairwise (fun a b => a.1 ≤ b.1) := by
  refine (pairwise_sort_regions l).imp ?_
  intro a b h
  rw [region_le_iff] at h
  omega

theorem covered_sort_regions (p : Nat) (l : List Itv) :
    covered p (sort_regions l) = covered p l := by
  rw [Bool.eq_iff_iff, covered_iff, covered_iff]
  constructor
  · rintro ⟨r, hr, h⟩
    exact ⟨r, (mem_sort_regions r l).mp hr, h⟩
  · rintro ⟨r, hr, h⟩
    exact ⟨r, (mem_sort_regions r l).mpr hr, h⟩

/-- Coverage of the merging pass: merging preserves the covered bases. -/
theorem merge_covered_go_covered (rest : List Itv) :
    ∀ (cur : Itv) (p : Nat), (∀ x ∈ rest, cur.1 ≤ x.1) →
    rest.Pairwise (fun a b => a.1 ≤ b.1) →
    (covered p (merge_covered_go cur rest)
      = (inItv p cur || covered p rest)) := by
  induction rest with
  | nil =>
    intro cur p _ _
    simp [merge_covered_go, covered]
  | cons r rest ih =>
    intro cur p hle hpw
    rw [List.pairwise_cons] at hpw
    rw [merge_covered_go]
    by_cases hov : overlaps cur r = true
    · rw [if_pos hov]
      rw [ih (cur.1, max cur.2 r.2) p
        (fun x hx => hle x (by simp [hx])) hpw.2]
      have hcr : cur.1 ≤ r.1 := hle r (by simp)
      rw [overlaps_iff] at hov
      have hitv : inItv p (cur.1, max cur.2 r.2) = (inItv p cur || inItv p r) := by
        rw [Bool.eq_iff_iff]
        simp only [Bool.or_eq_true, inItv_iff]
        omega
      rw [hitv, covered_cons, Bool.or_assoc]
    · rw [if_neg hov]
      rw [covered_cons, covered_cons,
        ih r p (fun x hx => hpw.1 x hx) hpw.2]

/-- The merging pass yields pairwise-disjoint, nonempty regions whose begins stay
at or after the current begin. -/
theorem merge_covered_go_canonical (rest : List Itv) :
    ∀ cur : Itv, cur.1 < cur.2 → (∀ x ∈ rest, x.1 < x.2) →
    (∀ x ∈ rest, cur.1 ≤ x.1) →
    rest.Pairwise (fun a b => a.1 ≤ b.1) →
    (merge_covered_go cur rest).Pairwise (fun a b => a.2 ≤ b.1) ∧
    (∀ x ∈ merge_covered_go cur rest, x.1 < x.2) ∧
    (∀ x ∈ merge_covered_go cur rest, cur.1 ≤ x.1) := by
  induction rest with
  | nil =>
    intro cur hcur _ _ _
    refine ⟨by simp [merge_covered_go], ?_, ?_⟩
    · intro x hx
      simp only [merge_covered_go, List.mem_singleton] at hx
      subst hx
      exact hcur
    · intro x hx
      simp only [merge_covered_go, List.mem_singleton] at hx
      subst hx
      exact le_refl _
  | cons r rest ih =>
    intro cur hcur hwf hle hpw
    rw [List.pairwise_cons] at hpw
    rw [merge_covered_go]
    by_cases hov : overlaps cur r = true
    · rw [if_pos hov]
      have hr2 : cur.2 ≤ max cur.2 r.2 := le_max_left _ _
      exact ih (cur.1, max cur.2 r.2) (by simp; omega)
        (fun x hx => hwf x (by simp [hx]))
        (fun x hx => hle x (by simp [hx])) hpw.2
    · rw [if_neg hov]
      have hcr : cur.1 ≤ r.1 := hle r (by simp)
      have hrwf : r.1 < r.2 := hwf r (by simp)
      have hsep : cur.2 ≤ r.1 := by
        rw [overlaps_iff] at hov
        omega
      obtain ⟨hpw', hwf', hbeg'⟩ := ih r hrwf
        (fun x hx => hwf x (by simp [hx])) (fun x hx => hpw.1 x hx) hpw.2
      refine ⟨?_, ?_, ?_⟩
      · rw [List.pairwise_cons]
        exact ⟨fun z hz => le_trans hsep (hbeg' z hz), hpw'⟩
      · intro x hx
        rcases List.mem_cons.mp hx with rfl | hx'
        · exact hcur
        · exact hwf' x hx'
      · intro x hx
        rcases List.mem_cons.mp hx with rfl | hx'
        · exact le_refl _
        · exact le_trans hcr (hbeg' x hx')

/-- The `make_search_regions_contig` preserves coverage. -/
theorem make_contig_covered (rs : List Itv) (p : Nat) :
    covered p (make_search_regions_contig rs) = covered p rs := by
  rw [make_search_regions_contig, ← covered_sort_regions p rs]
  cases hs : sort_regions rs with
  | nil => simp [extract_covered_regions]
  | cons r rest =>
    rw [extract_covered_regions]
    have hpw : (r :: rest).Pairwise (fun a b : Itv => a.1 ≤ b.1) := by
      rw [← hs]
      exact pairwise_begin_sort_regions rs
    rw [List.pairwise_cons] at hpw
    rw [merge_covered_go_covered rest r p (fun x hx => hpw.1 x hx) hpw.2]
    rw [covered_cons]

/-- The `make_search_regions_contig` yields pairwise-disjoint nonempty regions. -/
theorem make_contig_canonical (rs : List Itv) (hwf : ∀ r ∈ rs, r.1 < r.2) :
    (make_search_regions_contig rs).Pairwise (fun a b => a.2 ≤ b.1) ∧
    (∀ x ∈ make_search_regions_contig rs, x.1 < x.2) := by
  rw [make_search_regions_contig]
  cases hs : sort_regions rs with
  | nil => simp [extract_covered_regions]
  | cons r rest =>
    rw [extract_covered_regions]
    have hmem : ∀ x ∈ r :: rest, x ∈ rs := by
      intro x hx
      rw [← mem_sort_regions x rs, hs]
      exact hx
    have hpw : (r :: rest).Pairwise (fun a b : Itv => a.1 ≤ b.1) := by
      rw [← hs]
      exact pairwise_begin_sort_regions rs
    rw [List.pairwise_cons] at hpw
    obtain ⟨h1, h2, _⟩ := merge_covered_go_canonical rest r
      (hwf r (hmem r (by simp)))
      (fun x hx => hwf x (hmem x (by simp [hx])))
      (fun x hx => hpw.1 x hx) hpw.2
    exact ⟨h1, h2⟩

end SearchRegions

namespace SearchRegions

theorem contains_itv_iff (a b : Itv) :
    contains_itv a b = true ↔ a.1 ≤ b.1 ∧ b.2 ≤ a.2 := by
  simp [contains_itv]

/-- A guarded singleton chunk covers the same bases as the unguarded chunk, because
the guard is false only when the chunk is empty. -/
theorem covered_guard (p : Nat) (b : Bool) (x : Itv)
    (hempty : b = false → x.2 ≤ x.1) :
    covered p (if b then [x] else []) = inItv p x := by
  cases b with
  | false =>
    rw [if_neg (by simp)]
    rw [Bool.eq_iff_iff]
    simp only [covered_nil, inItv_iff, Bool.false_eq_true, false_iff]
    have := hempty rfl
    omega
  | true =>
    rw [if_pos rfl, covered_cons, covered_nil, Bool.or_false]

/-- Coverage of the chunk decomposition: a base is covered by the chunks between
the (disjoint) overlapped skips exactly when it lies in `[lo, hi)` and in no
skip. -/
theorem chunks_from_covered (ov : List Itv) :
    ∀ (lo hi p : Nat), ov.Pairwise (fun a b => a.2 ≤ b.1) →
    (∀ s ∈ ov, s.1 < hi ∧ s.1 ≤ s.2 ∧ lo ≤ s.2) →
    (covered p (chunks_from lo ov hi) = true ↔
      lo ≤ p ∧ p < hi ∧ covered p ov = false) := by
  induction ov with
  | nil =>
    intro lo hi p _ _
    rw [chunks_from, covered_cons, covered_nil, Bool.or_false, inItv_iff]
    simp
  | cons s rest ih =>
    intro lo hi p hpw hcond
    rw [List.pairwise_cons] at hpw
    obtain ⟨hs1, hs2, hs3⟩ := hcond s (by simp)
    have hrest_cond : ∀ x ∈ rest, x.1 < hi ∧ x.1 ≤ x.2 ∧ s.2 ≤ x.2 := by
      intro x hx
      obtain ⟨h1, h2, _⟩ := hcond x (by simp [hx])
      exact ⟨h1, h2, le_trans (hpw.1 x hx) h2⟩
    rw [chunks_from, covered_cons, Bool.or_eq_true, inItv_iff,
      ih s.2 hi p hpw.2 hrest_cond, covered_cons]
    cases hrest : covered p rest with
    | true =>
      have hple : s.2 ≤ p := by
        rw [covered_iff] at hrest
        obtain ⟨x, hx, h1, _⟩ := hrest
        exact le_trans (hpw.1 x hx) h1
      simp only [hrest, Bool.or_true]
      constructor
      · rintro (⟨_, hlt⟩ | ⟨_, _, h⟩)
        · omega
        · cases h
      · rintro ⟨_, _, h⟩
        cases h
    | false =>
      simp only [hrest, Bool.or_false]
      rw [Bool.eq_false_iff, ne_eq, inItv_iff]
      simp only [and_true]
      omega

/-- The chunk decomposition is pairwise disjoint and stays within `[lo, hi]`. -/
theorem chunks_from_canonical (ov : List Itv) :
    ∀ (lo hi : Nat), ov.Pairwise (fun a b => a.2 ≤ b.1) →
    (∀ s ∈ ov, s.1 < hi ∧ s.1 ≤ s.2 ∧ lo ≤ s.2) →
    (chunks_from lo ov hi).Pairwise (fun a b => a.2 ≤ b.1) ∧
    (∀ c ∈ chunks_from lo ov hi, lo ≤ c.1 ∧ c.2 ≤ hi) := by
  induction ov with
  | nil =>
    intro lo hi _ _
    refine ⟨by simp [chunks_from], ?_⟩
    intro c hc
    simp only [chunks_from, List.mem_singleton] at hc
    subst hc
    exact ⟨le_refl _, le_refl _⟩
  | cons s rest ih =>
    intro lo hi hpw hcond
    rw [List.pairwise_cons] at hpw
    obtain ⟨hs1, hs2, hs3⟩ := hcond s (by simp)
    have hrest_cond : ∀ x ∈ rest, x.1 < hi ∧ x.1 ≤ x.2 ∧ s.2 ≤ x.2 := by
      intro x hx
      obtain ⟨h1, h2, _⟩ := hcond x (by simp [hx])
      exact ⟨h1, h2, le_trans (hpw.1 x hx) h2⟩
    obtain ⟨hpw', hbnd'⟩ := ih s.2 hi hpw.2 hrest_cond
    rw [chunks_from]
    constructor
    · rw [List.pairwise_cons]
      refine ⟨?_, hpw'⟩
      intro c hc
      exact le_trans hs2 (hbnd' c hc).1
    · intro c hc
      rcases List.mem_cons.mp hc with rfl | hc'
      · exact ⟨le_refl _, le_of_lt hs1⟩
      · obtain ⟨h1, h2⟩ := hbnd' c hc'
        exact ⟨le_trans hs3 h1, h2⟩

/-- The chunk decomposition written as the source writes it: intervening regions
plus the final right chunk. -/
theorem chunks_from_eq (rest : List Itv) :
    ∀ (s : Itv) (hi : Nat),
    chunks_from s.2 rest hi
      = extract_intervening_regions (s :: rest)
        ++ [(((s :: rest).getLast (List.cons_ne_nil s rest)).2, hi)] := by
  induction rest with
  | nil =>
    intro s hi
    simp [chunks_from, extract_intervening_regions]
  | cons b t ih =>
    intro s hi
    rw [chunks_from, ih b hi, extract_intervening_regions]
    rw [List.getLast_cons (List.cons_ne_nil b t)]
    simp

end SearchRegions

namespace SearchRegions

theorem unskip_one_nil (skips : List Itv) (region : Itv)
    (hov : overlap_range skips region = []) :
    unskip_one skips region = [region] := by
  simp [unskip_one, hov]

theorem unskip_one_cons (skips : List Itv) (region s : Itv) (rest : List Itv)
    (hov : overlap_range skips region = s :: rest) :
    unskip_one skips region
      = if contains_itv s region then []
        else
          (if begins_before region s then [left_overhang_region region s]
            else []) ++
          extract_intervening_regions (s :: rest) ++
          (if ends_before ((s :: rest).getLast (List.cons_ne_nil s rest)) region
            then [right_overhang_region region
                ((s :: rest).getLast (List.cons_ne_nil s rest))]
            else []) := by
  simp [unskip_one, hov]

/-- The `unskip_one` covers exactly the bases of the region outside every skip. -/
theorem unskip_one_covered (skips : List Itv) (region : Itv) (p : Nat)
    (hwfs : ∀ s' ∈ skips, s'.1 < s'.2)
    (hpw : skips.Pairwise (fun a b => a.2 ≤ b.1)) :
    covered p (unskip_one skips region) = true ↔
      (inItv p region = true ∧ covered p skips = false) := by
  have hmemov : ∀ x : Itv, x ∈ overlap_range skips region ↔
      (x ∈ skips ∧ overlaps x region = true) := by
    intro x
    simp [overlap_range, List.mem_filter]
  have hskip_ov : region.1 ≤ p → p < region.2 →
      (covered p skips = true ↔ covered p (overlap_range skips region) = true) := by
    intro h1 h2
    rw [covered_iff, covered_iff]
    constructor
    · rintro ⟨sx, hsx, hx1, hx2⟩
      refine ⟨sx, (hmemov sx).mpr ⟨hsx, ?_⟩, hx1, hx2⟩
      rw [overlaps_iff]
      omega
    · rintro ⟨sx, hsx, hx1, hx2⟩
      exact ⟨sx, ((hmemov sx).mp hsx).1, hx1, hx2⟩
  cases hov : overlap_range skips region with
  | nil =>
    rw [unskip_one_nil skips region hov, covered_cons, covered_nil, Bool.or_false]
    constructor
    · intro h
      refine ⟨h, ?_⟩
      cases hcs : covered p skips with
      | false => rfl
      | true =>
        exfalso
        rw [inItv_iff] at h
        have hc := (hskip_ov h.1 h.2).mp hcs
        rw [hov] at hc
        exact absurd hc (by simp [covered_nil])
    · exact fun h => h.1
  | cons s rest =>
    have hsmem : s ∈ skips ∧ overlaps s region = true :=
      (hmemov s).mp (by rw [hov]; simp)
    have hpwov : (s :: rest).Pairwise (fun a b : Itv => a.2 ≤ b.1) := by
      rw [← hov]
      exact List.Pairwise.filter _ hpw
    have hcond : ∀ x ∈ s :: rest, x.1 < region.2 ∧ x.1 ≤ x.2 ∧ region.1 ≤ x.2 := by
      intro x hx
      have hx' : x ∈ skips ∧ overlaps x region = true := by
        apply (hmemov x).mp
        rw [hov]
        exact hx
      obtain ⟨hxs, hxov⟩ := hx'
      rw [overlaps_iff] at hxov
      have := hwfs x hxs
      exact ⟨hxov.1, by omega, by omega⟩
    rw [unskip_one_cons skips region s rest hov]
    by_cases hcon : contains_itv s region = true
    · rw [if_pos hcon, covered_nil]
      rw [contains_itv_iff] at hcon
      constructor
      · intro h
        cases h
      · rintro ⟨h1, h2⟩
        exfalso
        rw [inItv_iff] at h1
        have hcs : covered p skips = true := by
          rw [covered_iff]
          exact ⟨s, hsmem.1, by omega, by omega⟩
        rw [hcs] at h2
        cases h2
    · rw [if_neg hcon]
      have hguardL : covered p (if begins_before region s then
          [left_overhang_region region s] else [])
          = inItv p (left_overhang_region region s) := by
        apply covered_guard
        intro hb
        simp only [begins_before, decide_eq_false_iff_not, not_lt] at hb
        simpa [left_overhang_region] using hb
      have hguardR : covered p (if ends_before
            ((s :: rest).getLast (List.cons_ne_nil s rest)) region then
          [right_overhang_region region
            ((s :: rest).getLast (List.cons_ne_nil s rest))] else [])
          = inItv p (right_overhang_region region
              ((s :: rest).getLast (List.cons_ne_nil s rest))) := by
        apply covered_guard
        intro hb
        simp only [ends_before, decide_eq_false_iff_not, not_lt] at hb
        simpa [right_overhang_region] using hb
      rw [covered_append, covered_append, hguardL, hguardR]
      have hchun := chunks_from_covered (s :: rest) region.1 region.2 p hpwov hcond
      rw [chunks_from, chunks_from_eq rest s region.2] at hchun
      rw [covered_cons, covered_append, covered_cons, covered_nil,
        Bool.or_false] at hchun
      rw [show left_overhang_region region s = (region.1, s.1) from rfl]
      rw [show right_overhang_region region
            ((s :: rest).getLast (List.cons_ne_nil s rest))
          = ((((s :: rest).getLast (List.cons_ne_nil s rest))).2, region.2)
          from rfl]
      rw [Bool.or_assoc]
      rw [hchun, inItv_iff]
      constructor
      · rintro ⟨h1, h2, h3⟩
        refine ⟨⟨h1, h2⟩, ?_⟩
        cases hcs : covered p skips with
        | false => rfl
        | true =>
          exfalso
          have hc := (hskip_ov h1 h2).mp hcs
          rw [hov] at hc
          rw [hc] at h3
          cases h3
      · rintro ⟨⟨h1, h2⟩, hcs⟩
        refine ⟨h1, h2, ?_⟩
        cases hcr : covered p (s :: rest) with
        | false => rfl
        | true =>
          exfalso
          have hc : covered p skips = true := by
            apply (hskip_ov h1 h2).mpr
            rw [hov]
            exact hcr
          rw [hc] at hcs
          cases hcs

/-- The chunks produced by `unskip_one` are pairwise disjoint and lie within the
region. -/
theorem unskip_one_canonical (skips : List Itv) (region : Itv)
    (hwfs : ∀ s' ∈ skips, s'.1 < s'.2)
    (hpw : skips.Pairwise (fun a b => a.2 ≤ b.1)) :
    (unskip_one skips region).Pairwise (fun a b => a.2 ≤ b.1) ∧
    (∀ c ∈ unskip_one skips region, region.1 ≤ c.1 ∧ c.2 ≤ region.2) := by
  cases hov : overlap_range skips region with
  | nil =>
    rw [unskip_one_nil skips region hov]
    refine ⟨by simp, ?_⟩
    intro c hc
    simp only [List.mem_singleton] at hc
    subst hc
    exact ⟨le_refl _, le_refl _⟩
  | cons s rest =>
    have hpwov : (s :: rest).Pairwise (fun a b : Itv => a.2 ≤ b.1) := by
      rw [← hov]
      exact List.Pairwise.filter _ hpw
    have hmemov : ∀ x : Itv, x ∈ overlap_range skips region ↔
        (x ∈ skips ∧ overlaps x region = true) := by
      intro x
      simp [overlap_range, List.mem_filter]
    have hcond : ∀ x ∈ s :: rest, x.1 < region.2 ∧ x.1 ≤ x.2 ∧ region.1 ≤ x.2 := by
      intro x hx
      have hx' : x ∈ skips ∧ overlaps x region = true := by
        apply (hmemov x).mp
        rw [hov]
        exact hx
      obtain ⟨hxs, hxov⟩ := hx'
      rw [overlaps_iff] at hxov
      have := hwfs x hxs
      exact ⟨hxov.1, by omega, by omega⟩
    rw [unskip_one_cons skips region s rest hov]
    by_cases hcon : contains_itv s region = true
    · rw [if_pos hcon]
      exact ⟨by simp, by simp⟩
    · rw [if_neg hcon]
      have hsub : ((if begins_before region s then
            [left_overhang_region region s] else []) ++
          extract_intervening_regions (s :: rest) ++
          (if ends_before ((s :: rest).getLast (List.cons_ne_nil s rest)) region
            then [right_overhang_region region
                ((s :: rest).getLast (List.cons_ne_nil s rest))]
            else [])).Sublist (chunks_from region.1 (s :: rest) region.2) := by
        rw [chunks_from, chunks_from_eq rest s region.2]
        rw [show ((region.1, s.1) :: (extract_intervening_regions (s :: rest)
            ++ [(((s :: rest).getLast (List.cons_ne_nil s rest)).2, region.2)]))
          = ([((region.1, s.1) : Itv)] ++ extract_intervening_regions (s :: rest))
            ++ [(((s :: rest).getLast (List.cons_ne_nil s rest)).2, region.2)]
          from by simp]
        refine List.Sublist.append (List.Sublist.append ?_ (List.Sublist.refl _)) ?_
        · rw [show left_overhang_region region s = (region.1, s.1) from rfl]
          by_cases hb : begins_before region s = true
          · rw [if_pos hb]
          · rw [if_neg hb]
            exact List.nil_sublist _
        · rw [show right_overhang_region region
                ((s :: rest).getLast (List.cons_ne_nil s rest))
              = ((((s :: rest).getLast (List.cons_ne_nil s rest))).2, region.2)
              from rfl]
          by_cases hb : ends_before ((s :: rest).getLast
              (List.cons_ne_nil s rest)) region = true
          · rw [if_pos hb]
          · rw [if_neg hb]
            exact List.nil_sublist _
      obtain ⟨hcpw, hcbnd⟩ := chunks_from_canonical (s :: rest) region.1 region.2
        hpwov hcond
      exact ⟨hcpw.sublist hsub, fun c hc => hcbnd c (hsub.subset hc)⟩

end SearchRegions

namespace SearchRegions

/-- The `get_unskipped` covers exactly the region bases outside every skip. -/
theorem get_unskipped_covered (regions skips : List Itv) (p : Nat)
    (hwfs : ∀ s ∈ skips, s.1 < s.2)
    (hpw : skips.Pairwise (fun a b => a.2 ≤ b.1)) :
    covered p (get_unskipped regions skips) = true ↔
      (covered p regions = true ∧ covered p skips = false) := by
  rw [get_unskipped]
  by_cases hemp : skips.isEmpty
  · rw [if_pos hemp]
    have hnil : skips = [] := List.isEmpty_iff.mp hemp
    subst hnil
    simp [covered_nil]
  · rw [if_neg hemp]
    constructor
    · intro h
      rw [covered_iff] at h
      obtain ⟨ch, hch, h1, h2⟩ := h
      obtain ⟨r, hr, hcr⟩ := List.mem_flatMap.mp hch
      have hcov : covered p (unskip_one skips r) = true := by
        rw [covered_iff]
        exact ⟨ch, hcr, h1, h2⟩
      obtain ⟨hir, hcs⟩ := (unskip_one_covered skips r p hwfs hpw).mp hcov
      rw [inItv_iff] at hir
      refine ⟨?_, hcs⟩
      rw [covered_iff]
      exact ⟨r, hr, hir⟩
    · rintro ⟨hcr, hcs⟩
      rw [covered_iff] at hcr
      obtain ⟨r, hr, h1, h2⟩ := hcr
      have hcov : covered p (unskip_one skips r) = true :=
        (unskip_one_covered skips r p hwfs hpw).mpr
          ⟨by rw [inItv_iff]; exact ⟨h1, h2⟩, hcs⟩
      rw [covered_iff] at hcov ⊢
      obtain ⟨ch, hch, hc1, hc2⟩ := hcov
      exact ⟨ch, List.mem_flatMap.mpr ⟨r, hr, hch⟩, hc1, hc2⟩

/-- The `get_unskipped` keeps the output pairwise disjoint. -/
theorem get_unskipped_pairwise (regions skips : List Itv)
    (hpwr : regions.Pairwise (fun a b => a.2 ≤ b.1))
    (hwfs : ∀ s ∈ skips, s.1 < s.2)
    (hpw : skips.Pairwise (fun a b => a.2 ≤ b.1)) :
    (get_unskipped regions skips).Pairwise (fun a b => a.2 ≤ b.1) := by
  rw [get_unskipped]
  by_cases hemp : skips.isEmpty
  · rw [if_pos hemp]
    exact hpwr
  · rw [if_neg hemp]
    apply List.pairwise_flatMap.mpr
    constructor
    · intro r _
      exact (unskip_one_canonical skips r hwfs hpw).1
    · refine hpwr.imp ?_
      intro r1 r2 h12 x hx y hy
      have b1 := (unskip_one_canonical skips r1 hwfs hpw).2 x hx
      have b2 := (unskip_one_canonical skips r2 hwfs hpw).2 y hy
      omega

/-- On a pairwise-disjoint region list, every base lies in at most one region, so
the member count is 1 or 0 according to coverage. -/
theorem countP_pairwise_disj (l : List Itv) (p : Nat)
    (hpw : l.Pairwise (fun a b => a.2 ≤ b.1)) :
    l.countP (inItv p) = if covered p l = true then 1 else 0 := by
  induction l with
  | nil => simp [covered_nil]
  | cons ch t ih =>
    rw [List.pairwise_cons] at hpw
    rw [List.countP_cons, covered_cons]
    cases hic : inItv p ch with
    | true =>
      have hzero : t.countP (inItv p) = 0 := by
        rw [List.countP_eq_zero]
        intro x hx
        have hle := hpw.1 x hx
        rw [inItv_iff] at hic
        rw [inItv_iff]
        omega
      simp [hic, hzero]
    | false =>
      simp [hic, ih hpw.2]

/-- The one-contig search-region extraction: every base covered by the input
regions and by no skip region lies in exactly one output region; every other base
lies in none. -/
theorem extract_contig_correct (regions skips : List Itv)
    (hwr : ∀ r ∈ regions, r.1 < r.2) (hws : ∀ s ∈ skips, s.1 < s.2) (p : Nat) :
    (extract_search_regions_contig regions skips).countP (inItv p)
      = if (covered p regions && !covered p skips) = true then 1 else 0 := by
  obtain ⟨hRpw, _⟩ := make_contig_canonical regions hwr
  obtain ⟨hSpw, hSwf⟩ := make_contig_canonical skips hws
  rw [extract_search_regions_contig]
  rw [countP_pairwise_disj _ p (get_unskipped_pairwise _ _ hRpw hSwf hSpw)]
  have h1 : covered p (get_unskipped (make_search_regions_contig regions)
        (make_search_regions_contig skips))
      = (covered p regions && !covered p skips) := by
    rw [Bool.eq_iff_iff, get_unskipped_covered _ _ p hSwf hSpw,
      make_contig_covered, make_contig_covered]
    simp [Bool.and_eq_true, Bool.not_eq_true']
  rw [h1]

/-- Coverage of the per-contig intervals coincides with contig-qualified
coverage. -/
theorem covered_contig_intervals (c : String) (p : Nat) (rs : List Region) :
    covered p (contig_intervals c rs) = covered_at c p rs := by
  rw [Bool.eq_iff_iff, covered_iff]
  simp only [covered_at, List.any_eq_true, Bool.and_eq_true, beq_iff_eq,
    inItv_iff]
  constructor
  · rintro ⟨itv, hmem, h1, h2⟩
    simp only [contig_intervals, List.mem_map, List.mem_filter, beq_iff_eq]
      at hmem
    obtain ⟨x, ⟨hx, hxc⟩, rfl⟩ := hmem
    exact ⟨x, hx, hxc, h1, h2⟩
  · rintro ⟨x, hx, hxc, h1, h2⟩
    refine ⟨x.2, ?_, h1, h2⟩
    simp only [contig_intervals, List.mem_map, List.mem_filter, beq_iff_eq]
    exact ⟨x, ⟨hx, hxc⟩, rfl⟩

/-- C5: search regions minus skip regions.  The concrete instance
`[chr1:100-200, chr1:150-300]` minus `[chr1:180-220]` yields exactly
`[chr1:100-180, chr1:220-300]`; and in general, for well-formed inputs, every base
of an input region outside every skip region lies in exactly one output region and
every base inside a skip region (or outside the inputs) lies in none. -/
theorem search_regions_minus_skips_spec :
    (extract_search_regions [("chr1", (100, 200)), ("chr1", (150, 300))]
        [("chr1", (180, 220))] "chr1" = [(100, 180), (220, 300)]) ∧
    (∀ (regions skips : List Region),
      (∀ r ∈ regions, r.2.1 < r.2.2) → (∀ s ∈ skips, s.2.1 < s.2.2) →
      ∀ (c : String) (p : Nat),
        (extract_search_regions regions skips c).countP (inItv p)
          = if (covered_at c p regions && !covered_at c p skips) = true
            then 1 else 0) := by
  constructor
  · decide
  · intro regions skips hwr hws c p
    have hwr' : ∀ r ∈ contig_intervals c regions, r.1 < r.2 := by
      intro r hr
      simp only [contig_intervals, List.mem_map, List.mem_filter] at hr
      obtain ⟨x, ⟨hx, _⟩, rfl⟩ := hr
      exact hwr x hx
    have hws' : ∀ s ∈ contig_intervals c skips, s.1 < s.2 := by
      intro s hs
      simp only [contig_intervals, List.mem_map, List.mem_filter] at hs
      obtain ⟨x, ⟨hx, _⟩, rfl⟩ := hs
      exact hws x hx
    rw [extract_search_regions, extract_contig_correct _ _ hwr' hws' p,
      covered_contig_intervals, covered_contig_intervals]

/-- Witness for C5: on the concrete instance, base 150 (inside the inputs, outside
the skip) lies in exactly one output region and base 190 (inside the skip) in
none. -/
theorem search_regions_minus_skips_spec_witness :
    (extract_search_regions [("chr1", (100, 200)), ("chr1", (150, 300))]
        [("chr1", (180, 220))] "chr1").countP (inItv 150) = 1 ∧
    (extract_search_regions [("chr1", (100, 200)), ("chr1", (150, 300))]
        [("chr1", (180, 220))] "chr1").countP (inItv 190) = 0 := by
  constructor
  · rw [search_regions_minus_skips_spec.2
      [("chr1", (100, 200)), ("chr1", (150, 300))] [("chr1", (180, 220))]
      (by decide) (by decide) "chr1" 150]
    decide
  · rw [search_regions_minus_skips_spec.2
      [("chr1", (100, 200)), ("chr1", (150, 300))] [("chr1", (180, 220))]
      (by decide) (by decide) "chr1" 190]
    decide

end SearchRegions
